import Mathlib

/-!
Verification of the Kuo driver-set search (repository `kuos_algorithm`).

The repository contains two implementations of the same algorithm:

* `src/kuos_algorithm/new_kuo.py` — the optimized implementation (class
  `SGraph` with an in-degree cache, `implication`, `find_candidates`,
  `run_combination`, `kuos_algorithm`), embedded below in namespace `NewKuo`;
* `src/kuos_algorithm/kuo.py` — the original implementation (no cache, the
  edge-removal helper `remove_successors` reads the module-level global `G`),
  embedded in namespace `Kuo` (for the ordinary use where the argument *is*
  the global graph) and in namespace `KuoGlobal` (a two-state embedding that
  keeps the global graph and the argument graph separate).

Modelling conventions, used consistently below:

* Node identifiers are `Nat` (the Python code uses opaque strings; only
  equality and an arbitrary fixed total order — used to linearize Python's
  unspecified set/dict iteration order — matter to the algorithm).
* Python sets and the networkx edge set are `Finset` (content equality,
  as in Python); Python lists are `List`.
* The `_in_degree_cache` dict is an association list `List (Nat × Int)`;
  the algorithm never adds or removes keys after initialization, it only
  updates values in place, which a key-preserving `List.map` models exactly.
* Operations that can raise in Python (`networkx` `remove_edge` on a missing
  edge, `list.pop` / `set.remove` on a missing element, successor queries on
  a missing node) return `Option`/an error value; `none` (or a `crash`
  constructor) is the raised exception.  Recursion uses explicit fuel; fuel
  exhaustion is also `none`, so every theorem below is conditioned on the
  call actually returning a value.
* The wall-clock timeout of `new_kuo.kuos_algorithm` is not modelled: the
  embedding is the run in which the timeout never fires, which is the run
  all `completed = true` claims are about.
-/

/-- Canonical ascending linearization of a finite set of nodes, used wherever
Python iterates a set or dict in unspecified order.  (Implemented by
enumeration so that it evaluates by kernel reduction.) -/
def sortNat (s : Finset Nat) : List Nat :=
  (List.range (s.sup id + 1)).filter (fun v => decide (v ∈ s))


namespace NewKuo

/-- State of `new_kuo.SGraph`: the underlying `networkx.DiGraph` (nodes and
directed edges), the public attributes `sets` and `reachable`, the private
`_edge_restore_stack`, and the private `_in_degree_cache`. -/
structure SGraph where
  nodes : Finset Nat
  edges : Finset (Nat × Nat)
  sets : List (Finset Nat)
  reachable : Finset Nat
  edge_restore_stack : List (Nat × Nat)
  in_degree_cache : List (Nat × Int)
  deriving DecidableEq

/-- True in-degree of `v`: the number of edges currently present whose target
is `v` (what `networkx`'s `in_degree` reports). -/
def inDeg (g : SGraph) (v : Nat) : Nat :=
  (g.edges.filter (fun e => e.2 = v)).card

/-- True out-degree of `u` (what `networkx`'s `out_degree` reports). -/
def outDeg (g : SGraph) (u : Nat) : Nat :=
  (g.edges.filter (fun e => e.1 = u)).card

/-- Successor set of `u` (what iterating `networkx`'s `successors` yields). -/
def successors (g : SGraph) (u : Nat) : Finset Nat :=
  (g.edges.filter (fun e => e.1 = u)).image Prod.snd

/-- `_refresh_degree_cache` / the cache as built at construction time:
one entry per node (in a canonical order linearizing Python's dict order),
holding the node's current true in-degree. -/
def refreshCache (nodes : Finset Nat) (edges : Finset (Nat × Nat)) : List (Nat × Int) :=
  (sortNat nodes).map (fun v => (v, ((edges.filter (fun e => e.2 = v)).card : Int)))

/-- `SGraph.__init__(iterable)` as reached through `get_graph_from_file`:
nodes are the endpoints of the listed edges, self-edges have been excluded by
the loader, `sets`/`reachable`/`_edge_restore_stack` start empty, and
`_refresh_degree_cache` fills the in-degree cache. -/
def mkGraph (input_edges : List (Nat × Nat)) : SGraph :=
  let es := (input_edges.filter (fun e => e.1 ≠ e.2)).toFinset
  let ns := es.image Prod.fst ∪ es.image Prod.snd
  { nodes := ns
    edges := es
    sets := []
    reachable := ∅
    edge_restore_stack := []
    in_degree_cache := refreshCache ns es }

/-- `self._in_degree_cache[v] -= 1`.  (Python raises `KeyError` when `v` has
no entry; in the algorithm the target of every removed edge is a node of the
graph and the cache is keyed on exactly the nodes, so the entry exists.  The
keywise map is a no-op on states lacking the key, which the source can never
reach without crashing first.) -/
def cacheDec (c : List (Nat × Int)) (v : Nat) : List (Nat × Int) :=
  c.map (fun p => if p.1 = v then (p.1, p.2 - 1) else p)

/-- `self._in_degree_cache[v] += 1` (same conventions as `cacheDec`). -/
def cacheInc (c : List (Nat × Int)) (v : Nat) : List (Nat × Int) :=
  c.map (fun p => if p.1 = v then (p.1, p.2 + 1) else p)

/-- Cached in-degree of `v`: the value stored in `_in_degree_cache[v]`,
`none` when the dict has no entry for `v`. -/
def cacheLookup (g : SGraph) (v : Nat) : Option Int :=
  (g.in_degree_cache.find? (fun p => p.1 = v)).map Prod.snd

/-- `SGraph.get_zero_indegree_nodes()` (with the default
`exclude_reachable=True`): the keys of `_in_degree_cache` whose cached degree
is `0`, minus `reachable`.  Note that this reads the cache, not the true
in-degrees. -/
def get_zero_indegree_nodes (g : SGraph) : Finset Nat :=
  ((g.in_degree_cache.filter (fun p => p.2 = 0)).map Prod.fst).toFinset \ g.reachable

/-- `SGraph.remove_edge(u, v)`: delegates to `networkx` (which raises —
modelled as `none` — when the edge is absent), pushes `(u, v)` on the restore
stack, and decrements the cached in-degree of `v`. -/
def remove_edge (g : SGraph) (u v : Nat) : Option SGraph :=
  if (u, v) ∈ g.edges then
    some { g with
            edges := g.edges.erase (u, v)
            edge_restore_stack := (u, v) :: g.edge_restore_stack
            in_degree_cache := cacheDec g.in_degree_cache v }
  else none

/-- `networkx.DiGraph.add_edge(u, v)` as inherited by `new_kuo.SGraph` (the
class does not override it): inserts the edge and any missing endpoint nodes.
It does not touch `_in_degree_cache`. -/
def add_edge (g : SGraph) (u v : Nat) : SGraph :=
  { g with
      nodes := insert u (insert v g.nodes)
      edges := insert (u, v) g.edges }

/-- `SGraph.restore_edge()`: on an empty restore stack it returns `None`
without touching the graph; otherwise it pops the most recent entry `(u, v)`,
re-adds the edge via `add_edge`, and increments the cached in-degree of `v`. -/
def restore_edge (g : SGraph) : SGraph × Option (Nat × Nat) :=
  match g.edge_restore_stack with
  | [] => (g, none)
  | (u, v) :: rest =>
    let g' := add_edge { g with edge_restore_stack := rest } u v
    ({ g' with in_degree_cache := cacheInc g'.in_degree_cache v }, some (u, v))

/-- The `successor_list` built by `SGraph.remove_node_successors`:
`for u in nodes: for v in self.successors(u): append (u, v)`.  Python's set
iteration order is unspecified; we linearize it in increasing node order. -/
def successorList (g : SGraph) (s : Finset Nat) : List (Nat × Nat) :=
  (sortNat s).flatMap (fun u => (sortNat (successors g u)).map (fun v => (u, v)))

/-- The removal loop of `remove_node_successors`:
`for (u, v) in successor_list: self.remove_edge(u, v)`. -/
def removeEdgeList (g : SGraph) : List (Nat × Nat) → Option SGraph
  | [] => some g
  | e :: es => (remove_edge g e.1 e.2).bind (fun g' => removeEdgeList g' es)

/-- `SGraph.remove_node_successors(nodes)`: removes every outgoing edge of the
given nodes and returns the count removed. -/
def remove_node_successors (g : SGraph) (s : Finset Nat) : Option (SGraph × Nat) :=
  let L := successorList g s
  (removeEdgeList g L).map (fun g' => (g', L.length))

/-- `for _ in range(c): graph.restore_edge()`. -/
def restoreN (g : SGraph) : Nat → SGraph
  | 0 => g
  | n + 1 => restoreN (restore_edge g).1 n

/-- `new_kuo.score_node(graph, node)`, line for line: out-degree minus
in-degree (both true, not cached), plus twice the number of successors not yet
reachable.  The source only calls read-only `networkx` queries, so the
embedding is a pure function of the state. -/
def score_node (g : SGraph) (node : Nat) : Int :=
  let out_degree := outDeg g node
  let in_degree := inDeg g node
  let new_successors := successors g node \ g.reachable
  let base_score : Int := (out_degree : Int) - (in_degree : Int)
  let reach_score : Int := (new_successors.card : Int) * 2
  base_score + reach_score

/-- Descending lexicographic comparison on `(score, node)` pairs: the order in
which `heapq.nlargest` returns scored candidates (largest tuple first). -/
def pairGe (a b : Int × Nat) : Bool :=
  decide (b.1 < a.1 ∨ (a.1 = b.1 ∧ b.2 ≤ a.2))

/-- Insertion into a descending-sorted list (used to model the descending
order `heapq.nlargest` produces). -/
def insertDesc (x : Int × Nat) : List (Int × Nat) → List (Int × Nat)
  | [] => [x]
  | y :: ys => if pairGe x y then x :: y :: ys else y :: insertDesc x ys

/-- Sort a list of `(score, node)` pairs in descending tuple order. -/
def sortDesc : List (Int × Nat) → List (Int × Nat) :=
  List.foldr insertDesc []

/-- `new_kuo.find_candidates(graph, k_remaining)`: score everything in
`nodes - reachable`, and return the nodes of the `k_remaining + buffer`
largest `(score, node)` pairs in descending order, where
`buffer = min(10, len(scored_candidates))`.  (`heapq.nlargest` on tuples is
the descending tuple sort cut to the requested length; all tuples are
distinct because the node components are.) -/
def find_candidates (g : SGraph) (k_remaining : Nat) : List Nat :=
  let candidates := g.nodes \ g.reachable
  let scored_candidates := (sortNat candidates).map (fun n => (score_node g n, n))
  let buffer := min 10 scored_candidates.length
  ((sortDesc scored_candidates).take (k_remaining + buffer)).map Prod.snd

/-- `new_kuo.implication(graph, debug_mode, level)` with explicit recursion
fuel (`none` = the recursion was cut off; the source recursion always
terminates because each level strictly grows `reachable`).  Success when all
nodes are reachable; otherwise peel the zero-cached-in-degree frontier `s_i`,
push it as a new level, remove its outgoing edges, recurse, and on failure
pop the level, subtract `s_i` from `reachable`, and restore exactly
`edge_count` edges. -/
def implication (g : SGraph) : Nat → Option (Bool × SGraph)
  | 0 => none
  | fuel + 1 =>
    if g.reachable.card = g.nodes.card then some (true, g)
    else
      let s_i := get_zero_indegree_nodes g
      if s_i.Nonempty then
        let g1 := { g with sets := g.sets ++ [s_i], reachable := g.reachable ∪ s_i }
        match remove_node_successors g1 s_i with
        | none => none
        | some (g2, edge_count) =>
          match implication g2 fuel with
          | none => none
          | some (true, g3) => some (true, g3)
          | some (false, g3) =>
            let g4 := { g3 with sets := g3.sets.dropLast, reachable := g3.reachable \ s_i }
            some (false, restoreN g4 edge_count)
      else some (false, g)

/-- The candidate loop of `run_combination`, parametrized by the recursive
call (`run_combination` itself at the enclosing fuel): skip already-reachable
candidates; add the candidate to `sets[0]` and `reachable`, remove its
outgoing edges, recurse with the same `k`, and on failure undo the addition,
restore exactly `edge_count` edges, and move to the next candidate. -/
def rcLoop (recur : SGraph → Nat → Option (Bool × SGraph)) :
    List Nat → SGraph → Nat → Option (Bool × SGraph)
  | [], g, _ => some (false, g)
  | node :: rest, g, k =>
    if node ∈ g.reachable then rcLoop recur rest g k
    else
      match g.sets with
      | [] => none
      | s_0 :: restSets =>
        let g1 := { g with
                     sets := insert node s_0 :: restSets
                     reachable := insert node g.reachable }
        match remove_node_successors g1 {node} with
        | none => none
        | some (g2, edge_count) =>
          match recur g2 k with
          | none => none
          | some (true, g3) => some (true, g3)
          | some (false, g3) =>
            match g3.sets with
            | [] => none
            | s0h :: rs =>
              if node ∈ s0h ∧ node ∈ g3.reachable then
                let g4 := { g3 with
                             sets := s0h.erase node :: rs
                             reachable := g3.reachable.erase node }
                rcLoop recur rest (restoreN g4 edge_count) k
              else none

/-- `new_kuo.run_combination(graph, k)` with explicit fuel (first argument,
so that the recursion is structural).  `graph.sets[0]` raises on an empty
level list (modelled as `none`); when the driver set has already reached size
`k` the cascade is attempted, otherwise the ranked candidates are tried in
order by `rcLoop`. -/
def run_combination : Nat → SGraph → Nat → Option (Bool × SGraph)
  | 0, _, _ => none
  | fuel + 1, g, k =>
    match g.sets with
    | [] => none
    | s_0 :: _ =>
      if s_0.card ≥ k then implication g fuel
      else rcLoop (run_combination fuel) (find_candidates g (k - s_0.card)) g k

/-- `k0 = len(s_0)` as computed at the top of `kuos_algorithm` (from the
input graph's cache, before any mutation). -/
def k0Val (g : SGraph) : Nat := (get_zero_indegree_nodes g).card

/-- The list of target sizes the escalation loop of `new_kuo.kuos_algorithm`
iterates over: `range(k0, len(graph.nodes) + 1)`. -/
def triedSizes (g : SGraph) : List Nat :=
  List.range' (k0Val g) (g.nodes.card + 1 - k0Val g)

/-- The initialization phase of `kuos_algorithm`: compute `s_0`, set
`sets = [s_0]` and `reachable = s_0.copy()`, and remove the outgoing edges of
`s_0` (always succeeds: the removed edges are read off the same graph). -/
def initState (g : SGraph) : Option SGraph :=
  let s_0 := get_zero_indegree_nodes g
  let g1 := { g with sets := [s_0], reachable := s_0 }
  (remove_node_successors g1 s_0).map Prod.fst

/-- The size-escalation loop of `kuos_algorithm` (the run in which the
wall-clock timeout never fires): try each `k` in order; on success return
`(graph.sets[0], True)`; when all sizes are exhausted return
`(set(), False)`. -/
def ksLoop (g : SGraph) : List Nat → Nat → Option (Finset Nat × Bool)
  | [], _ => some (∅, false)
  | k :: rest, fuel =>
    match run_combination fuel g k with
    | none => none
    | some (true, g') => some (g'.sets.headD ∅, true)
    | some (false, g') => ksLoop g' rest fuel

/-- `new_kuo.kuos_algorithm(graph)` (timeout never firing): initialize, then
escalate `k` from `k0` through `len(graph.nodes)` inclusive. -/
def kuos_algorithm (g : SGraph) (fuel : Nat) : Option (Finset Nat × Bool) :=
  match initState g with
  | none => none
  | some g2 => ksLoop g2 (triedSizes g) fuel

/-- The independent re-verification state of a claimed driver set `D`: a
fresh copy of the original graph in which all outgoing edges of nodes in `D`
have been removed, `reachable` starts as `D`, the level list is `[D]`, and
the in-degree cache is freshly consistent. -/
def verifyState (g : SGraph) (D : Finset Nat) : SGraph :=
  let E := g.edges \ g.edges.filter (fun e => e.1 ∈ D)
  { nodes := g.nodes
    edges := E
    sets := [D]
    reachable := D
    edge_restore_stack := []
    in_degree_cache := refreshCache g.nodes E }

/-- The in-degree cache is consistent: its keys are exactly the nodes, with
no duplicates, and every entry holds the true current in-degree. -/
def cacheOK (g : SGraph) : Prop :=
  (g.in_degree_cache.map Prod.fst).Nodup ∧
  (g.in_degree_cache.map Prod.fst).toFinset = g.nodes ∧
  ∀ p ∈ g.in_degree_cache, p.2 = (inDeg g p.1 : Int)

instance (g : SGraph) : Decidable (cacheOK g) :=
  inferInstanceAs (Decidable (_ ∧ _ ∧ _))

/-- Every edge endpoint is a node (an invariant `networkx` maintains for
every real graph object). -/
def edgesWF (g : SGraph) : Prop :=
  ∀ e ∈ g.edges, e.1 ∈ g.nodes ∧ e.2 ∈ g.nodes

instance (g : SGraph) : Decidable (edgesWF g) :=
  inferInstanceAs (Decidable (∀ e ∈ g.edges, _ ∧ _))

/-- Restore-stack discipline: entries are pairwise distinct, currently absent
from the edge set, and have node endpoints. -/
def stackOK (g : SGraph) : Prop :=
  g.edge_restore_stack.Nodup ∧
  ∀ e ∈ g.edge_restore_stack, e ∉ g.edges ∧ e.1 ∈ g.nodes ∧ e.2 ∈ g.nodes

instance (g : SGraph) : Decidable (stackOK g) :=
  inferInstanceAs (Decidable (_ ∧ ∀ e ∈ g.edge_restore_stack, _ ∧ _ ∧ _))

/-- A well-formed input graph, as produced by construction from an edge list:
consistent cache, edges between nodes, and a lawful restore stack. -/
def WF (g : SGraph) : Prop := cacheOK g ∧ edgesWF g ∧ stackOK g

instance (g : SGraph) : Decidable (WF g) :=
  inferInstanceAs (Decidable (_ ∧ _ ∧ _))

/-- The invariant of every stable search state reached by `run_combination`
from the post-initialization state of an original graph `g0`: one driver
level equal to `reachable`, edges of `g0` minus precisely the outgoing edges
of `reachable`, nodes unchanged, and a consistent, well-formed store. -/
def GoodFrom (g0 g : SGraph) : Prop :=
  g.nodes = g0.nodes ∧
  g.sets = [g.reachable] ∧
  g.edges = g0.edges \ g0.edges.filter (fun e => e.1 ∈ g.reachable) ∧
  g.reachable ⊆ g.nodes ∧
  cacheOK g ∧ edgesWF g

/-! ### Demonstration graphs for concrete witnesses -/

/-- A three-node graph `0 → 1`, `1 → 2`, `2 → 1` on which the cascade peels
`{0}`, dead-ends, and must backtrack. -/
def demoA : SGraph := mkGraph [(0, 1), (1, 2), (2, 1)]

/-- Two disjoint 2-cycles `0 ↔ 1` and `2 ↔ 3`: no zero-in-degree node, and
no single driver node suffices, so `run_combination` at `k = 1` tries and
rejects every candidate. -/
def demoTwoPairs : SGraph := mkGraph [(0, 1), (1, 0), (2, 3), (3, 2)]

/-- The post-initialization search state of `demoTwoPairs`. -/
def initTP : SGraph := (initState demoTwoPairs).getD (mkGraph [])

/-- The state returned by the failing `run_combination initTP 1` call. -/
def rcDemoOut : SGraph := ((run_combination 20 initTP 1).getD (false, initTP)).2

/-- The state returned by the failing cascade on `demoA`. -/
def impDemoOut : SGraph := ((implication demoA 5).getD (false, demoA)).2

end NewKuo

namespace Kuo

/-!
Embedding of `kuo.py`, for its ordinary use: the module-level global `G` and
the graph passed around by the functions are one and the same object (as in
the script's `__main__` block), so a single state suffices.  The mismatched
case — `remove_successors` reading the global while the callers hold a
different object — is modelled separately in namespace `KuoGlobal`.
-/

/-- State of `kuo.SGraph`: the `networkx.DiGraph`, the public `sets` and
`reachable` attributes, and `_edge_restore_stack`.  (No in-degree cache in
this implementation; `G.in_degree()` is the true degree.) -/
structure SGraph where
  nodes : Finset Nat
  edges : Finset (Nat × Nat)
  sets : List (Finset Nat)
  reachable : Finset Nat
  edge_restore_stack : List (Nat × Nat)
  deriving DecidableEq

/-- True in-degree of `v` (what `G.in_degree()` reports). -/
def inDeg (g : SGraph) (v : Nat) : Nat :=
  (g.edges.filter (fun e => e.2 = v)).card

/-- Successor set of `u`. -/
def successors (g : SGraph) (u : Nat) : Finset Nat :=
  (g.edges.filter (fun e => e.1 = u)).image Prod.snd

/-- `kuo.get_graph_from_file` followed by `SGraph.__init__`: self-edges
excluded by the loader; `sets`, `reachable` and the restore stack start
empty. -/
def mkGraph (input_edges : List (Nat × Nat)) : SGraph :=
  let es := (input_edges.filter (fun e => e.1 ≠ e.2)).toFinset
  let ns := es.image Prod.fst ∪ es.image Prod.snd
  { nodes := ns
    edges := es
    sets := []
    reachable := ∅
    edge_restore_stack := [] }

/-- `kuo.SGraph.remove_edge(u, v)`: delegates to `networkx` (raises — `none`
— when the edge is absent) and pushes `(u, v)` on the restore stack. -/
def remove_edge (g : SGraph) (u v : Nat) : Option SGraph :=
  if (u, v) ∈ g.edges then
    some { g with
            edges := g.edges.erase (u, v)
            edge_restore_stack := (u, v) :: g.edge_restore_stack }
  else none

/-- `kuo.SGraph.restore_edge()`: pops the stack — `list.pop` raises
(`none`) on an empty stack — and re-adds the popped edge via `add_edge`
(which inserts any missing endpoint nodes). -/
def restore_edge (g : SGraph) : Option (SGraph × (Nat × Nat)) :=
  match g.edge_restore_stack with
  | [] => none
  | (u, v) :: rest =>
    some ({ g with
              nodes := insert u (insert v g.nodes)
              edges := insert (u, v) g.edges
              edge_restore_stack := rest }, (u, v))

/-- The `successor_list` built by `kuo.remove_successors` (canonical
linearization of the two nested Python loops). -/
def successorList (g : SGraph) (s : Finset Nat) : List (Nat × Nat) :=
  (sortNat s).flatMap (fun u => (sortNat (successors g u)).map (fun v => (u, v)))

/-- The removal loop of `remove_successors`. -/
def removeEdgeList (g : SGraph) : List (Nat × Nat) → Option SGraph
  | [] => some g
  | e :: es => (remove_edge g e.1 e.2).bind (fun g' => removeEdgeList g' es)

/-- `kuo.remove_successors(s_i)` as invoked with the graph in hand being the
global `G`: build the successor list (`G.successors(u)` raises — `none` —
when `u` is not a node of `G`), remove each listed edge, and return the
list. -/
def remove_successors (g : SGraph) (s : Finset Nat) : Option (SGraph × List (Nat × Nat)) :=
  if s ⊆ g.nodes then
    (removeEdgeList g (successorList g s)).map (fun g' => (g', successorList g s))
  else none

/-- `for _ in range(n): G.restore_edge()` — fails (`none`) if the stack
underflows. -/
def restore_edges (g : SGraph) : Nat → Option SGraph
  | 0 => some g
  | n + 1 => (restore_edge g).bind (fun p => restore_edges p.1 n)

/-- `kuo.implication(G, i)` with explicit fuel (last argument; `i` is the
level counter the source only uses for debug output).  Same structure as the
optimized version, but the zero-in-degree frontier is computed from the true
in-degrees, and the backtracking restore can fail if the stack underflows. -/
def implication : SGraph → Nat → Nat → Option (Bool × SGraph)
  | _, _, 0 => none
  | g, i, fuel + 1 =>
    if g.reachable.card = g.nodes.card then some (true, g)
    else
      let s_i := (g.nodes.filter (fun v => inDeg g v = 0)) \ g.reachable
      if s_i.Nonempty then
        let g1 := { g with sets := g.sets ++ [s_i], reachable := g.reachable ∪ s_i }
        match remove_successors g1 s_i with
        | none => none
        | some (g2, successor_list) =>
          match implication g2 (i + 1) fuel with
          | none => none
          | some (true, g3) => some (true, g3)
          | some (false, g3) =>
            let g4 := { g3 with sets := g3.sets.dropLast, reachable := g3.reachable \ s_i }
            (restore_edges g4 successor_list.length).map (fun g5 => (false, g5))
      else some (false, g)

/-- The candidate loop of `kuo.run_combination` (over
`s_0_prime = set(G.nodes) - s_0`), parametrized by the recursive call:
add the node to `G.sets[0]` and `G.reachable`, remove its successors,
recurse with `k - 1`, and on failure undo (`set.remove` raises — `none` —
when the element is missing) and restore the removed edges. -/
def rcLoop (recur : SGraph → Int → Option (Bool × SGraph)) :
    List Nat → SGraph → Int → Option (Bool × SGraph)
  | [], g, _ => some (false, g)
  | node :: rest, g, k =>
    match g.sets with
    | [] => none
    | s_0 :: restSets =>
      let g1 := { g with
                   sets := insert node s_0 :: restSets
                   reachable := insert node g.reachable }
      match remove_successors g1 {node} with
      | none => none
      | some (g2, successor_list) =>
        match recur g2 (k - 1) with
        | none => none
        | some (true, g3) => some (true, g3)
        | some (false, g3) =>
          match g3.sets with
          | [] => none
          | s0h :: rs =>
            if node ∈ s0h then
              if node ∈ g3.reachable then
                let g4 := { g3 with
                             sets := s0h.erase node :: rs
                             reachable := g3.reachable.erase node }
                (restore_edges g4 successor_list.length).bind
                  (fun g5 => rcLoop recur rest g5 k)
              else none
            else none

/-- `kuo.run_combination(G, k)` with explicit fuel (first argument).  `k` is
an integer: the recursion passes `k - 1`, which can go negative, and the
guard is the equality test `k - k0 == 0`, not a comparison. -/
def run_combination : Nat → SGraph → Int → Option (Bool × SGraph)
  | 0, _, _ => none
  | fuel + 1, g, k =>
    match g.sets with
    | [] => none
    | s_0 :: _ =>
      if k - (s_0.card : Int) = 0 then implication g 1 fuel
      else rcLoop (run_combination fuel) (sortNat (g.nodes \ s_0)) g k

/-- `k0 = len(s_0)` as computed at the top of `kuo.kuos_algorithm` (from the
true in-degrees of the input graph). -/
def k0Val (g : SGraph) : Nat :=
  ((g.nodes.filter (fun v => inDeg g v = 0)) \ g.reachable).card

/-- The list of target sizes the loop of `kuo.kuos_algorithm` iterates over:
`range(k0, len(G.nodes))` — the upper end `len(G.nodes)` is *excluded*. -/
def triedSizes (g : SGraph) : List Nat :=
  List.range' (k0Val g) (g.nodes.card - k0Val g)

/-- The initialization phase of `kuo.kuos_algorithm`: compute `s_0` from the
true in-degrees, set `sets = [s_0]`, union `s_0` into `reachable`, and
remove the outgoing edges of `s_0`. -/
def initState (g : SGraph) : Option SGraph :=
  let s_0 := (g.nodes.filter (fun v => inDeg g v = 0)) \ g.reachable
  let g1 := { g with sets := [s_0], reachable := g.reachable ∪ s_0 }
  (remove_successors g1 s_0).map Prod.fst

/-- The escalation loop of `kuo.kuos_algorithm`: on success return
`G.sets[0]`; falling off the end of the loop returns Python `None`
(modelled as the inner `none` of the doubled `Option`). -/
def ksLoop (g : SGraph) : List Nat → Nat → Option (Option (Finset Nat))
  | [], _ => some none
  | k :: rest, fuel =>
    match run_combination fuel g (k : Int) with
    | none => none
    | some (true, g') => some (some (g'.sets.headD ∅))
    | some (false, g') => ksLoop g' rest fuel

/-- `kuo.kuos_algorithm(G)`: outer `Option` is crash/fuel exhaustion, inner
`Option` is the function's own result (`some D`, or Python's implicit `None`
when every `k` in `range(k0, len(G.nodes))` fails). -/
def kuos_algorithm (g : SGraph) (fuel : Nat) : Option (Option (Finset Nat)) :=
  match initState g with
  | none => none
  | some g2 => ksLoop g2 (triedSizes g) fuel

/-- Every edge endpoint is a node (an invariant `networkx` maintains for
every real graph object). -/
def edgesWFK (g : SGraph) : Prop :=
  ∀ e ∈ g.edges, e.1 ∈ g.nodes ∧ e.2 ∈ g.nodes

instance (g : SGraph) : Decidable (edgesWFK g) :=
  inferInstanceAs (Decidable (∀ e ∈ g.edges, _ ∧ _))

end Kuo

namespace KuoGlobal

/-!
Two-state embedding of `kuo.py`'s `implication` for the mismatched case of
claim C10: the graph argument `G` of `implication` is *not* the module-level
global `G`.  Reads of `G.reachable`, `G.sets`, `G.nodes`, `G.in_degree()`
and the backtracking `G.restore_edge()` calls go to the *argument*, while
`remove_successors` — a separate module-level function whose `G` is the
global — reads `G.successors` from and applies `G.remove_edge` to the
*global* graph.
-/

/-- Result of a run: normal return, an uncaught Python exception (`crash`),
or fuel exhaustion — each carrying the global and argument states at that
point. -/
inductive RunRes where
  | ok (b : Bool) (glob arg : Kuo.SGraph)
  | crash (glob arg : Kuo.SGraph)
  | fuelout (glob arg : Kuo.SGraph)
  deriving DecidableEq

/-- The global state in a result. -/
def globOf : RunRes → Kuo.SGraph
  | .ok _ glob _ => glob
  | .crash glob _ => glob
  | .fuelout glob _ => glob

/-- The argument state in a result. -/
def argOf : RunRes → Kuo.SGraph
  | .ok _ _ arg => arg
  | .crash _ arg => arg
  | .fuelout _ arg => arg

/-- Whether the run raised. -/
def isCrash : RunRes → Bool
  | .crash _ _ => true
  | _ => false

/-- The restore loop of the backtracking branch, applied — as the source
does — to the *argument* graph: pop (raising on underflow, with the pops so
far retained) and re-add.  Returns the new argument state and whether all
`n` restores succeeded. -/
def restoreSteps (a : Kuo.SGraph) : Nat → Kuo.SGraph × Bool
  | 0 => (a, true)
  | n + 1 =>
    match Kuo.restore_edge a with
    | none => (a, false)
    | some (a', _) => restoreSteps a' n

/-- `kuo.implication(G, i)` where the argument `G` differs from the global
graph: frontier and termination tests read the argument; edge removal
mutates the global; backtracking restores pop the argument's (initially
untouched) stack. -/
def implication2 : Kuo.SGraph → Kuo.SGraph → Nat → RunRes
  | glob, arg, 0 => .fuelout glob arg
  | glob, arg, fuel + 1 =>
    if arg.reachable.card = arg.nodes.card then .ok true glob arg
    else
      let s_i := (arg.nodes.filter (fun v => Kuo.inDeg arg v = 0)) \ arg.reachable
      if s_i.Nonempty then
        let arg1 := { arg with sets := arg.sets ++ [s_i], reachable := arg.reachable ∪ s_i }
        match Kuo.remove_successors glob s_i with
        | none => .crash glob arg1
        | some (glob2, successor_list) =>
          match implication2 glob2 arg1 fuel with
          | .ok true glob3 arg3 => .ok true glob3 arg3
          | .ok false glob3 arg3 =>
            let arg4 := { arg3 with
                           sets := arg3.sets.dropLast
                           reachable := arg3.reachable \ s_i }
            match restoreSteps arg4 successor_list.length with
            | (arg5, true) => .ok false glob3 arg5
            | (arg5, false) => .crash glob3 arg5
          | .crash glob3 arg3 => .crash glob3 arg3
          | .fuelout glob3 arg3 => .fuelout glob3 arg3
      else .ok false glob arg

end KuoGlobal

/-!
### Balanced remove/restore programs

A "sequence of `remove_edge` calls followed by an equal number of
`restore_last_edge` calls, in any nesting consistent with LIFO order", is
exactly a Dyck word over `remove`/`restore`; every such word decomposes as
`remove e; (balanced); restore; (balanced)`, which the following tree type
captures. -/
inductive BProg where
  | nil : BProg
  | node : (Nat × Nat) → BProg → BProg → BProg

/-- Run a balanced program against a `new_kuo` graph store: `node e inner
rest` removes `e` (failing if absent), runs `inner`, calls `restore_edge`
once, then runs `rest`. -/
def execBProg : BProg → NewKuo.SGraph → Option NewKuo.SGraph
  | .nil, g => some g
  | .node e inner rest, g =>
    (NewKuo.remove_edge g e.1 e.2).bind (fun g1 =>
      (execBProg inner g1).bind (fun g2 =>
        execBProg rest (NewKuo.restore_edge g2).1))

/-- A consistent three-node graph used by the store-level claims. -/
def demoC : NewKuo.SGraph := NewKuo.mkGraph [(0, 1), (1, 2)]

/-- The 2-cycle as loaded by `kuo.py`. -/
def kuoTwoCycle : Kuo.SGraph := Kuo.mkGraph [(0, 1), (1, 0)]

/-- The 2-cycle as loaded by `new_kuo.py`. -/
def nkTwoCycle : NewKuo.SGraph := NewKuo.mkGraph [(0, 1), (1, 0)]

/-- `kuo.py`'s post-initialization state on the 2-cycle. -/
def kuoInitTC : Kuo.SGraph := (Kuo.initState kuoTwoCycle).getD (Kuo.mkGraph [])

/-- The one-edge graph `0 → 1`, used both as the global and (as a distinct
object) the argument in the mismatched-global scenario of claim C10. -/
def kuoSingle : Kuo.SGraph := Kuo.mkGraph [(0, 1)]

/-- The run of `kuo.implication` on an argument graph distinct from (but
isomorphic to) the global graph. -/
def c10run : KuoGlobal.RunRes := KuoGlobal.implication2 kuoSingle kuoSingle 10

/-- The state returned by the failing `kuo.run_combination` call at `k = 1`
on the 2-cycle's post-initialization state. -/
def kuoRcOut : Kuo.SGraph :=
  ((Kuo.run_combination 12 kuoInitTC 1).getD (false, kuoInitTC)).2

/-- `demoA` as loaded by `kuo.py`. -/
def kuoDemoA : Kuo.SGraph := Kuo.mkGraph [(0, 1), (1, 2), (2, 1)]

/-- The state returned by the failing `kuo.implication` cascade on
`kuoDemoA`. -/
def kuoImpOut : Kuo.SGraph :=
  ((Kuo.implication kuoDemoA 1 5).getD (false, kuoDemoA)).2

/-- The specification's worked example: `A B`, `B C`, `D C` with
`A, B, D, C = 0, 1, 3, 2`. -/
def c4g : NewKuo.SGraph := NewKuo.mkGraph [(0, 1), (1, 2), (3, 2)]

/-- Its post-initialization state. -/
def c4init : NewKuo.SGraph := (NewKuo.initState c4g).getD (NewKuo.mkGraph [])

/-- The state returned by the successful `run_combination` call at
`k = 2` on `c4init`. -/
def c4out : NewKuo.SGraph :=
  ((NewKuo.run_combination 12 c4init 2).getD (false, c4init)).2

/-- The driver set `kuos_algorithm` returns on `c4g`. -/
def c4D : Finset Nat := ((NewKuo.kuos_algorithm c4g 12).getD (∅, false)).1

-- THEOREM-SECTION-MARKER

theorem mem_sortNat {s : Finset Nat} {v : Nat} : v ∈ sortNat s ↔ v ∈ s := by
  unfold sortNat
  simp only [List.mem_filter, List.mem_range, decide_eq_true_eq]
  exact ⟨fun h => h.2, fun h => ⟨Nat.lt_succ_of_le (Finset.le_sup (f := id) h), h⟩⟩

/-- The canonical linearization has no duplicates. -/
theorem sortNat_nodup (s : Finset Nat) : (sortNat s).Nodup :=
  (List.nodup_range _).filter _

namespace NewKuo

/-! ### Basic facts about the store operations -/

/-- Membership in the successor list: exactly the current edges whose source
lies in the given node set. -/
theorem mem_successorList {g : SGraph} {s : Finset Nat} {e : Nat × Nat} :
    e ∈ successorList g s ↔ e.1 ∈ s ∧ e ∈ g.edges := by
  unfold successorList
  simp only [List.mem_flatMap, List.mem_map, mem_sortNat, successors, Finset.mem_image,
    Finset.mem_filter]
  constructor
  · rintro ⟨u, hu, v, ⟨⟨a, b⟩, ⟨hab, hab1⟩, habv⟩, rfl⟩
    subst hab1 habv
    exact ⟨hu, hab⟩
  · rintro ⟨h1, h2⟩
    exact ⟨e.1, h1, e.2, ⟨e, ⟨h2, rfl⟩, rfl⟩, rfl⟩

/-- The successor list never repeats an edge. -/
theorem successorList_nodup (g : SGraph) (s : Finset Nat) :
    (successorList g s).Nodup := by
  unfold successorList
  rw [List.nodup_flatMap]
  refine ⟨fun u _ => ?_, ?_⟩
  · exact (sortNat_nodup _).map (fun a b h => by simpa using congrArg Prod.snd h)
  · have hs := sortNat_nodup s
    refine List.Pairwise.imp_of_mem ?_ hs
    intro a b _ _ hab
    intro e hea heb
    simp only [List.mem_map] at hea heb
    obtain ⟨va, _, rfl⟩ := hea
    obtain ⟨vb, _, hvb⟩ := heb
    exact hab (by simpa using congrArg Prod.fst hvb.symm)

/-- Structural facts about a successful removal loop: nodes, `sets` and
`reachable` are untouched, and the edge set only shrinks. -/
theorem removeEdgeList_facts :
    ∀ (L : List (Nat × Nat)) (g h : SGraph), removeEdgeList g L = some h →
      h.nodes = g.nodes ∧ h.sets = g.sets ∧ h.reachable = g.reachable ∧
        h.edges ⊆ g.edges := by
  intro L
  induction L with
  | nil =>
    intro g h hrun
    simp only [removeEdgeList, Option.some.injEq] at hrun
    subst hrun
    exact ⟨rfl, rfl, rfl, le_refl _⟩
  | cons e es ih =>
    intro g h hrun
    simp only [removeEdgeList, remove_edge, Option.bind_eq_bind] at hrun
    split at hrun
    · rw [Option.some_bind] at hrun
      obtain ⟨h1, h2, h3, h4⟩ := ih _ _ hrun
      exact ⟨h1, h2, h3, h4.trans (Finset.erase_subset _ _)⟩
    · simp at hrun

/-- Splitting a restoration run. -/
theorem restoreN_add (g : SGraph) (m n : Nat) :
    restoreN g (m + n) = restoreN (restoreN g m) n := by
  induction m generalizing g with
  | zero => simp [restoreN]
  | succ m ih =>
    have : m + 1 + n = (m + n) + 1 := by omega
    rw [this]
    show restoreN (restore_edge g).1 (m + n) = _
    rw [ih]
    rfl

/-- Incrementing a cached degree exactly undoes decrementing it. -/
theorem cacheInc_cacheDec (c : List (Nat × Int)) (v : Nat) :
    cacheInc (cacheDec c v) v = c := by
  unfold cacheInc cacheDec
  rw [List.map_map]
  have : ∀ p ∈ c, ((fun p : Nat × Int => if p.1 = v then (p.1, p.2 + 1) else p) ∘
      (fun p : Nat × Int => if p.1 = v then (p.1, p.2 - 1) else p)) p = id p := by
    intro p _
    obtain ⟨a, b⟩ := p
    by_cases hp : a = v <;> simp [hp]
  rw [List.map_congr_left this, List.map_id]

/-- The central undo lemma: a successful run of the removal loop over a
duplicate-free list of present edges is exactly inverted by that many
`restore_edge` calls, whatever happened to `sets` and `reachable` in
between. -/
theorem restore_undoes_removeEdgeList :
    ∀ (L : List (Nat × Nat)) (g h : SGraph), L.Nodup →
      (∀ e ∈ L, e ∈ g.edges ∧ e.1 ∈ g.nodes ∧ e.2 ∈ g.nodes) →
      removeEdgeList g L = some h →
      ∀ (sets' : List (Finset Nat)) (reach' : Finset Nat),
        restoreN { h with sets := sets', reachable := reach' } L.length
          = { g with sets := sets', reachable := reach' } := by
  intro L
  induction L with
  | nil =>
    intro g h _ _ hrun sets' reach'
    simp only [removeEdgeList, Option.some.injEq] at hrun
    subst hrun
    rfl
  | cons e es ih =>
    intro g h hnd hmem hrun sets' reach'
    simp only [removeEdgeList, remove_edge, Option.bind_eq_bind] at hrun
    rw [if_pos (hmem e (by simp)).1, Option.some_bind] at hrun
    set g1 : SGraph :=
      { g with
          edges := g.edges.erase e
          edge_restore_stack := e :: g.edge_restore_stack
          in_degree_cache := cacheDec g.in_degree_cache e.2 } with hg1
    have hes : ∀ e' ∈ es, e' ∈ g1.edges ∧ e'.1 ∈ g1.nodes ∧ e'.2 ∈ g1.nodes := by
      intro e' he'
      refine ⟨Finset.mem_erase.2 ⟨?_, (hmem e' (by simp [he'])).1⟩,
        (hmem e' (by simp [he'])).2.1, (hmem e' (by simp [he'])).2.2⟩
      exact fun hcontra => (List.nodup_cons.1 hnd).1 (hcontra ▸ he')
    have ihres := ih g1 h (List.nodup_cons.1 hnd).2 hes hrun sets' reach'
    have hlen : (e :: es).length = es.length + 1 := rfl
    rw [hlen, restoreN_add, ihres]
    show restoreN (restore_edge { g1 with sets := sets', reachable := reach' }).1 0 = _
    simp only [restoreN]
    have hstack : ({ g1 with sets := sets', reachable := reach' } : SGraph).edge_restore_stack
        = e :: g.edge_restore_stack := rfl
    unfold restore_edge
    rw [hstack]
    simp only [add_edge]
    have hins : insert (e.1, e.2) (g.edges.erase (e.1, e.2)) = g.edges :=
      Finset.insert_erase (by exact (hmem e (by simp)).1)
    have hn1 : insert e.2 g.nodes = g.nodes := Finset.insert_eq_self.2 (hmem e (by simp)).2.2
    have hn2 : insert e.1 g.nodes = g.nodes := Finset.insert_eq_self.2 (hmem e (by simp)).2.1
    cases e with
    | mk u v =>
      simp only []
      congr 1 <;> simp [hn1, hn2, hins, cacheInc_cacheDec]

/-- The zero-in-degree frontier is disjoint from `reachable` by
construction. -/
theorem zero_indegree_disjoint (g : SGraph) :
    Disjoint g.reachable (get_zero_indegree_nodes g) :=
  Finset.disjoint_sdiff

/-- Unfolding a successful `remove_node_successors` call. -/
theorem remove_node_successors_eq {g : SGraph} {s : Finset Nat} {g2 : SGraph} {c : Nat} :
    remove_node_successors g s = some (g2, c) →
      removeEdgeList g (successorList g s) = some g2 ∧ c = (successorList g s).length := by
  intro h
  unfold remove_node_successors at h
  rw [Option.map_eq_some'] at h
  obtain ⟨h', hrun, heq⟩ := h
  obtain ⟨rfl, rfl⟩ := Prod.mk.injEq .. ▸ heq
  exact ⟨hrun, rfl⟩

/-! ### Restoration: the implication cascade exactly undoes its own
mutations on every failure (the core of claim C3) -/

/-- If the cascade returns `false`, the state on return is exactly the state
it was called in: the level it appended has been popped, its nodes removed
from `reachable` again, and each removed edge restored. -/
theorem implication_restores_aux :
    ∀ (fuel : Nat) (g g' : SGraph), edgesWF g →
      implication g fuel = some (false, g') → g' = g := by
  intro fuel
  induction fuel with
  | zero => intro g g' _ h; simp [implication] at h
  | succ fuel ih =>
    intro g g' hWF h
    rw [implication] at h
    split at h
    · simp at h
    · simp only [] at h
      split at h
      · split at h
        · simp at h
        · rename_i g2 c hrns
          split at h
          · simp at h
          · simp at h
          · rename_i g3 himp
            simp only [Option.some.injEq, Prod.mk.injEq, true_and] at h
            set s_i := get_zero_indegree_nodes g with hsi
            set g1 : SGraph :=
              { g with sets := g.sets ++ [s_i], reachable := g.reachable ∪ s_i } with hg1
            obtain ⟨hrun, hc⟩ := remove_node_successors_eq hrns
            have hfacts := removeEdgeList_facts _ _ _ hrun
            have hWF2 : edgesWF g2 := by
              intro e he
              have := hWF e (hfacts.2.2.2 he)
              rw [hfacts.1]
              exact this
            have hg3 : g3 = g2 := ih g2 g3 hWF2 himp
            rw [hg3] at h
            have hmem : ∀ e ∈ successorList g1 s_i,
                e ∈ g1.edges ∧ e.1 ∈ g1.nodes ∧ e.2 ∈ g1.nodes := by
              intro e he
              have hm := mem_successorList.1 he
              exact ⟨hm.2, (hWF e hm.2).1, (hWF e hm.2).2⟩
            have hundo := restore_undoes_removeEdgeList _ g1 g2
              (successorList_nodup g1 s_i) hmem hrun g.sets g.reachable
            have hsets : g2.sets.dropLast = g.sets := by
              rw [hfacts.2.1]
              exact List.dropLast_concat
            have hreach : g2.reachable \ s_i = g.reachable := by
              rw [hfacts.2.2.1]
              exact Finset.union_sdiff_cancel_right (zero_indegree_disjoint g)
            rw [hsets, hreach, hc, hundo] at h
            exact h.symm
      · simp only [Option.some.injEq, Prod.mk.injEq, true_and] at h
        exact h.symm

/-- The candidate loop restores the state exactly whenever it fails,
provided the recursive callee it was given does so. -/
theorem rcLoop_restores_of (recur : SGraph → Nat → Option (Bool × SGraph))
    (hA : ∀ (g : SGraph) (k : Nat) (g' : SGraph), edgesWF g →
      g.sets.headD ∅ ⊆ g.reachable →
      recur g k = some (false, g') → g' = g) :
    ∀ (cands : List Nat) (g : SGraph) (k : Nat) (g' : SGraph), edgesWF g →
      g.sets.headD ∅ ⊆ g.reachable →
      rcLoop recur cands g k = some (false, g') → g' = g := by
  intro cands
  induction cands with
  | nil =>
    intro g k g' _ _ h
    rw [rcLoop] at h
    simp only [Option.some.injEq, Prod.mk.injEq, true_and] at h
    exact h.symm
  | cons node rest ih =>
    intro g k g' hWF hHead h
    rw [rcLoop] at h
    split at h
    · exact ih g k g' hWF hHead h
    · rename_i hnode
      split at h
      · simp at h
      · rename_i s_0 restSets hsets
        simp only [] at h
        split at h
        · simp at h
        · rename_i g2 c hrns
          split at h
          · simp at h
          · simp at h
          · rename_i g3 hrc
            set g1 : SGraph :=
              { g with
                  sets := insert node s_0 :: restSets
                  reachable := insert node g.reachable } with hg1
            obtain ⟨hrun, hc⟩ := remove_node_successors_eq hrns
            have hfacts := removeEdgeList_facts _ _ _ hrun
            have hWF2 : edgesWF g2 := by
              intro e he
              have := hWF e (hfacts.2.2.2 he)
              rw [hfacts.1]
              exact this
            have hs0sub : s_0 ⊆ g.reachable := by
              have : g.sets.headD ∅ = s_0 := by rw [hsets]; rfl
              exact this ▸ hHead
            have hHead2 : g2.sets.headD ∅ ⊆ g2.reachable := by
              rw [hfacts.2.1, hfacts.2.2.1]
              show insert node s_0 ⊆ insert node g.reachable
              exact Finset.insert_subset_insert _ hs0sub
            have hg3 : g3 = g2 := hA g2 k g3 hWF2 hHead2 hrc
            rw [hg3] at h
            split at h
            · simp at h
            · rename_i s0h rs hsets3
              split at h
              · rename_i hcond
                have hsets2 : g2.sets = insert node s_0 :: restSets := hfacts.2.1
                rw [hsets2] at hsets3
                obtain ⟨hs0h, hrs⟩ := List.cons.injEq .. ▸ hsets3
                have hnots0 : node ∉ s_0 := fun hmem => hnode (hs0sub hmem)
                have herase1 : s0h.erase node = s_0 := by
                  rw [← hs0h]
                  exact Finset.erase_insert hnots0
                have herase2 : g2.reachable.erase node = g.reachable := by
                  rw [hfacts.2.2.1]
                  exact Finset.erase_insert hnode
                have hmem : ∀ e ∈ successorList g1 {node},
                    e ∈ g1.edges ∧ e.1 ∈ g1.nodes ∧ e.2 ∈ g1.nodes := by
                  intro e he
                  have hm := mem_successorList.1 he
                  exact ⟨hm.2, (hWF e hm.2).1, (hWF e hm.2).2⟩
                have hundo := restore_undoes_removeEdgeList _ g1 g2
                  (successorList_nodup g1 {node}) hmem hrun g.sets g.reachable
                rw [herase1, herase2, ← hrs, ← hsets, hc, hundo] at h
                have hgeta : ({ g1 with sets := g.sets, reachable := g.reachable } : SGraph)
                    = g := rfl
                rw [hgeta] at h
                exact ih g k g' hWF hHead h
              · simp at h

/-- If the driver-set search call fails, the state on return is exactly the
state it was called in (the central failure-semantics property). -/
theorem run_combination_restores_aux :
    ∀ (fuel : Nat) (g : SGraph) (k : Nat) (g' : SGraph), edgesWF g →
      g.sets.headD ∅ ⊆ g.reachable →
      run_combination fuel g k = some (false, g') → g' = g := by
  intro fuel
  induction fuel with
  | zero => intro g k g' _ _ h; simp [run_combination] at h
  | succ fuel ih =>
    intro g k g' hWF hHead h
    rw [run_combination] at h
    split at h
    · simp at h
    · split at h
      · exact implication_restores_aux fuel g g' hWF h
      · exact rcLoop_restores_of (run_combination fuel)
          (fun g k g' hW hH hr => ih g k g' hW hH hr) _ g k g' hWF hHead h

/-! ### Consistency of the in-degree cache -/

/-- The keys of a refreshed cache are the (linearized) nodes. -/
theorem refreshCache_keys (ns : Finset Nat) (es : Finset (Nat × Nat)) :
    (refreshCache ns es).map Prod.fst = sortNat ns := by
  unfold refreshCache
  rw [List.map_map]
  have h : ∀ a ∈ sortNat ns, (Prod.fst ∘ fun v : Nat =>
      (v, ((es.filter (fun e => e.2 = v)).card : Int))) a = id a := fun a _ => rfl
  rw [List.map_congr_left h, List.map_id]

/-- A state whose cache is freshly refreshed has a consistent cache. -/
theorem cacheOK_of_refresh (g : SGraph)
    (h : g.in_degree_cache = refreshCache g.nodes g.edges) : cacheOK g := by
  refine ⟨?_, ?_, ?_⟩
  · rw [h, refreshCache_keys]
    exact sortNat_nodup _
  · rw [h, refreshCache_keys]
    ext v
    simp [List.mem_toFinset, mem_sortNat]
  · intro p hp
    rw [h] at hp
    unfold refreshCache at hp
    rw [List.mem_map] at hp
    obtain ⟨v, hv, rfl⟩ := hp
    rfl

/-- A freshly constructed graph has a consistent cache. -/
theorem cacheOK_mkGraph (l : List (Nat × Nat)) : cacheOK (mkGraph l) :=
  cacheOK_of_refresh _ rfl

/-- A successful `remove_edge` keeps the cache consistent. -/
theorem cacheOK_remove_edge {g g' : SGraph} {u v : Nat} (hok : cacheOK g)
    (h : remove_edge g u v = some g') : cacheOK g' := by
  unfold remove_edge at h
  split at h
  · rename_i hmem
    obtain rfl := Option.some.inj h
    obtain ⟨hnd, hkeys, hval⟩ := hok
    have hkeq : (cacheDec g.in_degree_cache v).map Prod.fst
        = g.in_degree_cache.map Prod.fst := by
      unfold cacheDec
      rw [List.map_map]
      refine List.map_congr_left ?_
      intro p _
      by_cases hp : p.1 = v <;> simp [hp]
    refine ⟨by rw [hkeq] at *; exact hnd, by rw [hkeq] at *; exact hkeys, ?_⟩
    intro p hp
    unfold cacheDec at hp
    rw [List.mem_map] at hp
    obtain ⟨q, hq, rfl⟩ := hp
    have hqval := hval q hq
    by_cases hqv : q.1 = v
    · simp only [hqv, if_pos rfl]
      show q.2 - 1 = (inDeg _ v : Int)
      have hle : 1 ≤ inDeg g v :=
        Finset.card_pos.2 ⟨(u, v), Finset.mem_filter.2 ⟨hmem, rfl⟩⟩
      have : inDeg { g with
          edges := g.edges.erase (u, v)
          edge_restore_stack := (u, v) :: g.edge_restore_stack
          in_degree_cache := cacheDec g.in_degree_cache v } v = inDeg g v - 1 := by
        show ((g.edges.erase (u, v)).filter (fun e => e.2 = v)).card = _
        rw [Finset.filter_erase]
        exact Finset.card_erase_of_mem (Finset.mem_filter.2 ⟨hmem, rfl⟩)
      rw [this, hqval, hqv, Nat.cast_sub hle]
      rfl
    · simp only [if_neg hqv]
      rw [hqval]
      show _ = (inDeg _ q.1 : Int)
      congr 1
      show inDeg g q.1 = ((g.edges.erase (u, v)).filter (fun e => e.2 = q.1)).card
      have hnotmem : (u, v) ∉ g.edges.filter (fun e : Nat × Nat => e.2 = q.1) :=
        fun hc => hqv ((Finset.mem_filter.1 hc).2).symm
      rw [Finset.filter_erase, Finset.erase_eq_self.2 hnotmem]
      rfl
  · exact absurd h (by simp)

/-- A `restore_edge` that pops a currently absent edge between existing
nodes keeps the cache consistent. -/
theorem cacheOK_restore_edge {g : SGraph} {u v : Nat} {rest : List (Nat × Nat)}
    (hok : cacheOK g) (hstack : g.edge_restore_stack = (u, v) :: rest)
    (habs : (u, v) ∉ g.edges) (hu : u ∈ g.nodes) (hv : v ∈ g.nodes) :
    cacheOK (restore_edge g).1 := by
  unfold restore_edge
  rw [hstack]
  simp only [add_edge]
  obtain ⟨hnd, hkeys, hval⟩ := hok
  have hkeq : (cacheInc g.in_degree_cache v).map Prod.fst
      = g.in_degree_cache.map Prod.fst := by
    unfold cacheInc
    rw [List.map_map]
    refine List.map_congr_left ?_
    intro p _
    by_cases hp : p.1 = v <;> simp [hp]
  refine ⟨?_, ?_, ?_⟩
  · show ((cacheInc g.in_degree_cache v).map Prod.fst).Nodup
    rw [hkeq]; exact hnd
  · show ((cacheInc g.in_degree_cache v).map Prod.fst).toFinset
        = insert u (insert v g.nodes)
    rw [hkeq, hkeys, Finset.insert_eq_self.2 hv, Finset.insert_eq_self.2 hu]
  · intro p hp
    unfold cacheInc at hp
    rw [List.mem_map] at hp
    obtain ⟨q, hq, rfl⟩ := hp
    have hqval := hval q hq
    by_cases hqv : q.1 = v
    · simp only [hqv, if_pos rfl]
      show q.2 + 1 = _
      have : ((insert (u, v) g.edges).filter
          (fun e : Nat × Nat => e.2 = v)).card = inDeg g v + 1 := by
        rw [Finset.filter_insert, if_pos rfl]
        exact Finset.card_insert_of_not_mem (fun hc => habs (Finset.mem_filter.1 hc).1)
      show q.2 + 1 = (((insert (u, v) g.edges).filter (fun e => e.2 = v)).card : Int)
      rw [this, hqval, hqv]
      push_cast
      ring
    · simp only [if_neg hqv]
      rw [hqval]
      show (inDeg g q.1 : Int)
          = (((insert (u, v) g.edges).filter (fun e => e.2 = q.1)).card : Int)
      congr 1
      show inDeg g q.1 = _
      rw [Finset.filter_insert, if_neg (fun hc : v = q.1 => hqv hc.symm)]
      rfl

/-- Under a consistent cache, looking up an existing node yields its true
in-degree. -/
theorem cacheLookup_eq_inDeg {g : SGraph} (hok : cacheOK g) {v : Nat}
    (hv : v ∈ g.nodes) : cacheLookup g v = some ((inDeg g v : Int)) := by
  obtain ⟨hnd, hkeys, hval⟩ := hok
  have hvk : v ∈ g.in_degree_cache.map Prod.fst := by
    rw [← List.mem_toFinset, hkeys]
    exact hv
  rw [List.mem_map] at hvk
  obtain ⟨q, hq, hqv⟩ := hvk
  unfold cacheLookup
  cases hfind : g.in_degree_cache.find? (fun p => p.1 = v) with
  | none =>
    rw [List.find?_eq_none] at hfind
    exact absurd (by simpa using hqv) (by simpa using hfind q hq)
  | some p =>
    have hp1 : p.1 = v := by simpa using List.find?_some hfind
    have hpmem := List.mem_of_find?_eq_some hfind
    rw [Option.map_some']
    rw [hval p hpmem, hp1]

/-- A bare inherited `add_edge` of a new edge leaves the cached in-degree of
the target one below its true in-degree. -/
theorem add_edge_stale {g : SGraph} {u v : Nat} (hok : cacheOK g)
    (habs : (u, v) ∉ g.edges) (hv : v ∈ g.nodes) :
    cacheLookup (add_edge g u v) v = some ((inDeg (add_edge g u v) v : Int) - 1) := by
  have hlook : cacheLookup (add_edge g u v) v = cacheLookup g v := rfl
  rw [hlook, cacheLookup_eq_inDeg hok hv]
  have : inDeg (add_edge g u v) v = inDeg g v + 1 := by
    show ((insert (u, v) g.edges).filter (fun e : Nat × Nat => e.2 = v)).card = _
    rw [Finset.filter_insert, if_pos rfl]
    exact Finset.card_insert_of_not_mem (fun hc => habs (Finset.mem_filter.1 hc).1)
  rw [this]
  push_cast
  ring_nf

end NewKuo

namespace Kuo

/-! ### Store lemmas for the original implementation (`kuo.py`) -/

/-- Membership in the successor list. -/
theorem mem_successorList_kuo {g : SGraph} {s : Finset Nat} {e : Nat × Nat} :
    e ∈ successorList g s ↔ e.1 ∈ s ∧ e ∈ g.edges := by
  unfold successorList
  simp only [List.mem_flatMap, List.mem_map, mem_sortNat, successors, Finset.mem_image,
    Finset.mem_filter]
  constructor
  · rintro ⟨u, hu, v, ⟨⟨a, b⟩, ⟨hab, hab1⟩, habv⟩, rfl⟩
    subst hab1 habv
    exact ⟨hu, hab⟩
  · rintro ⟨h1, h2⟩
    exact ⟨e.1, h1, e.2, ⟨e, ⟨h2, rfl⟩, rfl⟩, rfl⟩

/-- The successor list never repeats an edge. -/
theorem successorList_nodup_kuo (g : SGraph) (s : Finset Nat) :
    (successorList g s).Nodup := by
  unfold successorList
  rw [List.nodup_flatMap]
  refine ⟨fun u _ => ?_, ?_⟩
  · exact (sortNat_nodup _).map (fun a b h => by simpa using congrArg Prod.snd h)
  · have hs := sortNat_nodup s
    refine List.Pairwise.imp_of_mem ?_ hs
    intro a b _ _ hab
    intro e hea heb
    simp only [List.mem_map] at hea heb
    obtain ⟨va, _, rfl⟩ := hea
    obtain ⟨vb, _, hvb⟩ := heb
    exact hab (by simpa using congrArg Prod.fst hvb.symm)

/-- Structural facts about a successful removal loop. -/
theorem removeEdgeList_facts_kuo :
    ∀ (L : List (Nat × Nat)) (g h : SGraph), removeEdgeList g L = some h →
      h.nodes = g.nodes ∧ h.sets = g.sets ∧ h.reachable = g.reachable ∧
        h.edges ⊆ g.edges := by
  intro L
  induction L with
  | nil =>
    intro g h hrun
    simp only [removeEdgeList, Option.some.injEq] at hrun
    subst hrun
    exact ⟨rfl, rfl, rfl, le_refl _⟩
  | cons e es ih =>
    intro g h hrun
    simp only [removeEdgeList, remove_edge, Option.bind_eq_bind] at hrun
    split at hrun
    · rw [Option.some_bind] at hrun
      obtain ⟨h1, h2, h3, h4⟩ := ih _ _ hrun
      exact ⟨h1, h2, h3, h4.trans (Finset.erase_subset _ _)⟩
    · simp at hrun

/-- Splitting a restoration run. -/
theorem restore_edges_add (g : SGraph) (m n : Nat) :
    restore_edges g (m + n) = (restore_edges g m).bind (fun g' => restore_edges g' n) := by
  induction m generalizing g with
  | zero => simp [restore_edges]
  | succ m ih =>
    have h1 : m + 1 + n = (m + n) + 1 := by omega
    rw [h1]
    show (restore_edge g).bind (fun p => restore_edges p.1 (m + n)) = _
    cases hre : restore_edge g with
    | none => simp [restore_edges, hre]
    | some p =>
      simp only [Option.some_bind]
      rw [ih]
      have h2 : restore_edges g (m + 1) = restore_edges p.1 m := by
        show (restore_edge g).bind (fun q => restore_edges q.1 m) = _
        rw [hre, Option.some_bind]
      rw [h2]

/-- The undo lemma for `kuo.py`: a successful removal loop over a
duplicate-free list of present edges with node endpoints is exactly inverted
by that many `restore_edge` calls (which in particular all succeed). -/
theorem restore_undoes_removeEdgeList_kuo :
    ∀ (L : List (Nat × Nat)) (g h : SGraph), L.Nodup →
      (∀ e ∈ L, e ∈ g.edges ∧ e.1 ∈ g.nodes ∧ e.2 ∈ g.nodes) →
      removeEdgeList g L = some h →
      ∀ (sets' : List (Finset Nat)) (reach' : Finset Nat),
        restore_edges { h with sets := sets', reachable := reach' } L.length
          = some { g with sets := sets', reachable := reach' } := by
  intro L
  induction L with
  | nil =>
    intro g h _ _ hrun sets' reach'
    simp only [removeEdgeList, Option.some.injEq] at hrun
    subst hrun
    rfl
  | cons e es ih =>
    intro g h hnd hmem hrun sets' reach'
    simp only [removeEdgeList, remove_edge, Option.bind_eq_bind] at hrun
    rw [if_pos (hmem e (by simp)).1, Option.some_bind] at hrun
    set g1 : SGraph :=
      { g with
          edges := g.edges.erase e
          edge_restore_stack := e :: g.edge_restore_stack } with hg1
    have hes : ∀ e' ∈ es, e' ∈ g1.edges ∧ e'.1 ∈ g1.nodes ∧ e'.2 ∈ g1.nodes := by
      intro e' he'
      refine ⟨Finset.mem_erase.2 ⟨?_, (hmem e' (by simp [he'])).1⟩,
        (hmem e' (by simp [he'])).2.1, (hmem e' (by simp [he'])).2.2⟩
      exact fun hcontra => (List.nodup_cons.1 hnd).1 (hcontra ▸ he')
    have ihres := ih g1 h (List.nodup_cons.1 hnd).2 hes hrun sets' reach'
    have hlen : (e :: es).length = es.length + 1 := rfl
    rw [hlen, restore_edges_add, ihres, Option.some_bind]
    show (restore_edge { g1 with sets := sets', reachable := reach' }).bind
        (fun p => restore_edges p.1 0) = _
    have hstack : ({ g1 with sets := sets', reachable := reach' } : SGraph).edge_restore_stack
        = e :: g.edge_restore_stack := rfl
    unfold restore_edge
    rw [hstack]
    have hins : insert (e.1, e.2) (g.edges.erase (e.1, e.2)) = g.edges :=
      Finset.insert_erase (by exact (hmem e (by simp)).1)
    have hn1 : insert e.2 g.nodes = g.nodes := Finset.insert_eq_self.2 (hmem e (by simp)).2.2
    have hn2 : insert e.1 g.nodes = g.nodes := Finset.insert_eq_self.2 (hmem e (by simp)).2.1
    cases e with
    | mk u v =>
      simp only [Option.some_bind]
      show some _ = _
      congr 1
      congr 1
      simp [hn1, hn2, hins]

/-- Unfolding a successful `remove_successors` call. -/
theorem remove_successors_eq {g : SGraph} {s : Finset Nat} {g2 : SGraph}
    {L : List (Nat × Nat)} :
    remove_successors g s = some (g2, L) →
      removeEdgeList g (successorList g s) = some g2 ∧ L = successorList g s ∧
        s ⊆ g.nodes := by
  intro h
  unfold remove_successors at h
  split at h
  · rename_i hsub
    rw [Option.map_eq_some'] at h
    obtain ⟨h', hrun, heq⟩ := h
    obtain ⟨rfl, rfl⟩ := Prod.mk.injEq .. ▸ heq
    exact ⟨hrun, rfl, hsub⟩
  · exact absurd h (by simp)

/-- Failure restoration for `kuo.implication`: a `false` return hands back
exactly the entry state (and in particular all its backtracking restores
succeed). -/
theorem implication_restores_kuo :
    ∀ (fuel : Nat) (g : SGraph) (i : Nat) (g' : SGraph), edgesWFK g →
      implication g i fuel = some (false, g') → g' = g := by
  intro fuel
  induction fuel with
  | zero => intro g i g' _ h; simp [implication] at h
  | succ fuel ih =>
    intro g i g' hWF h
    rw [implication] at h
    split at h
    · simp at h
    · simp only [] at h
      split at h
      · split at h
        · simp at h
        · rename_i g2 L hrns
          split at h
          · simp at h
          · simp at h
          · rename_i g3 himp
            set s_i := (g.nodes.filter (fun v => inDeg g v = 0)) \ g.reachable with hsi
            set g1 : SGraph :=
              { g with sets := g.sets ++ [s_i], reachable := g.reachable ∪ s_i } with hg1
            obtain ⟨hrun, hL, _⟩ := remove_successors_eq hrns
            have hfacts := removeEdgeList_facts_kuo _ _ _ hrun
            have hWF2 : edgesWFK g2 := by
              intro e he
              have := hWF e (hfacts.2.2.2 he)
              rw [hfacts.1]
              exact this
            have hg3 : g3 = g2 := ih g2 (i + 1) g3 hWF2 himp
            rw [hg3] at h
            have hmem : ∀ e ∈ successorList g1 s_i,
                e ∈ g1.edges ∧ e.1 ∈ g1.nodes ∧ e.2 ∈ g1.nodes := by
              intro e he
              have hm := mem_successorList_kuo.1 he
              exact ⟨hm.2, (hWF e hm.2).1, (hWF e hm.2).2⟩
            have hundo := restore_undoes_removeEdgeList_kuo _ g1 g2
              (successorList_nodup_kuo g1 s_i) hmem hrun g.sets g.reachable
            have hsets : g2.sets.dropLast = g.sets := by
              rw [hfacts.2.1]
              exact List.dropLast_concat
            have hreach : g2.reachable \ s_i = g.reachable := by
              rw [hfacts.2.2.1]
              exact Finset.union_sdiff_cancel_right Finset.disjoint_sdiff
            rw [hsets, hreach, hL, hundo] at h
            simp only [Option.map_some', Option.some.injEq, Prod.mk.injEq, true_and] at h
            exact h.symm
      · simp only [Option.some.injEq, Prod.mk.injEq, true_and] at h
        exact h.symm

/-- The candidate loop of `kuo.run_combination` restores exactly on failure,
provided the recursive callee does, the driver level equals `reachable`, and
every listed candidate is outside `reachable`. -/
theorem rcLoop_restores_kuo_of (recur : SGraph → Int → Option (Bool × SGraph))
    (hA : ∀ (g : SGraph) (k : Int) (g' : SGraph), edgesWFK g →
      g.sets.headD ∅ = g.reachable →
      recur g k = some (false, g') → g' = g) :
    ∀ (cands : List Nat) (g : SGraph) (k : Int) (g' : SGraph), edgesWFK g →
      g.sets.headD ∅ = g.reachable →
      (∀ n ∈ cands, n ∉ g.reachable) →
      rcLoop recur cands g k = some (false, g') → g' = g := by
  intro cands
  induction cands with
  | nil =>
    intro g k g' _ _ _ h
    rw [rcLoop] at h
    simp only [Option.some.injEq, Prod.mk.injEq, true_and] at h
    exact h.symm
  | cons node rest ih =>
    intro g k g' hWF hHead hcands h
    rw [rcLoop] at h
    split at h
    · simp at h
    · rename_i s_0 restSets hsets
      simp only [] at h
      split at h
      · simp at h
      · rename_i g2 L hrns
        split at h
        · simp at h
        · simp at h
        · rename_i g3 hrc
          set g1 : SGraph :=
            { g with
                sets := insert node s_0 :: restSets
                reachable := insert node g.reachable } with hg1
          obtain ⟨hrun, hL, _⟩ := remove_successors_eq hrns
          have hfacts := removeEdgeList_facts_kuo _ _ _ hrun
          have hWF2 : edgesWFK g2 := by
            intro e he
            have := hWF e (hfacts.2.2.2 he)
            rw [hfacts.1]
            exact this
          have hs0 : s_0 = g.reachable := by
            have : g.sets.headD ∅ = s_0 := by rw [hsets]; rfl
            rw [← this, hHead]
          have hnode : node ∉ g.reachable := hcands node (by simp)
          have hHead2 : g2.sets.headD ∅ = g2.reachable := by
            rw [hfacts.2.1, hfacts.2.2.1]
            show insert node s_0 = insert node g.reachable
            rw [hs0]
          have hg3 : g3 = g2 := hA g2 (k - 1) g3 hWF2 hHead2 hrc
          rw [hg3] at h
          split at h
          · simp at h
          · rename_i s0h rs hsets3
            split at h
            · rename_i hin1
              split at h
              · rename_i hin2
                have hsets2 : g2.sets = insert node s_0 :: restSets := hfacts.2.1
                rw [hsets2] at hsets3
                obtain ⟨hs0h, hrs⟩ := List.cons.injEq .. ▸ hsets3
                have hnots0 : node ∉ s_0 := fun hm => hnode (hs0 ▸ hm)
                have herase1 : s0h.erase node = s_0 := by
                  rw [← hs0h]
                  exact Finset.erase_insert hnots0
                have herase2 : g2.reachable.erase node = g.reachable := by
                  rw [hfacts.2.2.1]
                  exact Finset.erase_insert hnode
                have hmem : ∀ e ∈ successorList g1 {node},
                    e ∈ g1.edges ∧ e.1 ∈ g1.nodes ∧ e.2 ∈ g1.nodes := by
                  intro e he
                  have hm := mem_successorList_kuo.1 he
                  exact ⟨hm.2, (hWF e hm.2).1, (hWF e hm.2).2⟩
                have hundo := restore_undoes_removeEdgeList_kuo _ g1 g2
                  (successorList_nodup_kuo g1 {node}) hmem hrun g.sets g.reachable
                rw [herase1, herase2, ← hrs, ← hsets, hL, hundo, Option.some_bind] at h
                have hgeta : ({ g1 with sets := g.sets, reachable := g.reachable } : SGraph)
                    = g := rfl
                rw [hgeta] at h
                exact ih g k g' hWF hHead (fun n hn => hcands n (by simp [hn])) h
              · simp at h
            · simp at h

/-- Failure restoration for `kuo.run_combination` in its ordinary use (the
argument is the global graph): a `false` return hands back exactly the entry
state, whenever the driver level equals `reachable` (as it does at every
stable point of the search). -/
theorem run_combination_restores_kuo :
    ∀ (fuel : Nat) (g : SGraph) (k : Int) (g' : SGraph), edgesWFK g →
      g.sets.headD ∅ = g.reachable →
      run_combination fuel g k = some (false, g') → g' = g := by
  intro fuel
  induction fuel with
  | zero => intro g k g' _ _ h; simp [run_combination] at h
  | succ fuel ih =>
    intro g k g' hWF hHead h
    rw [run_combination] at h
    split at h
    · simp at h
    · rename_i s_0 rest hsets
      split at h
      · exact implication_restores_kuo fuel g 1 g' hWF h
      · refine rcLoop_restores_kuo_of (run_combination fuel)
          (fun g k g' hW hH hr => ih g k g' hW hH hr) _ g k g' hWF hHead ?_ h
        intro n hn
        rw [mem_sortNat, Finset.mem_sdiff] at hn
        have hh : g.sets.headD ∅ = s_0 := by rw [hsets]; rfl
        have hr : g.reachable = s_0 := by rw [← hHead]; exact hh
        rw [hr]
        exact hn.2

end Kuo

/-- Appending at the tail does not change the head of a nonempty list. -/
theorem headD_append_singleton {α : Type} (l : List α) (x d : α) (h : l ≠ []) :
    (l ++ [x]).headD d = l.headD d := by
  cases l with
  | nil => exact absurd rfl h
  | cons a as => rfl

namespace NewKuo

/-! ### The driver level `sets[0]` through a successful search -/

/-- A successful cascade never touches the driver level `sets[0]` (levels
are appended and popped at the tail only). -/
theorem implication_true_head :
    ∀ (fuel : Nat) (g g' : SGraph), g.sets ≠ [] →
      implication g fuel = some (true, g') →
      g'.sets.headD ∅ = g.sets.headD ∅ := by
  intro fuel
  induction fuel with
  | zero => intro g g' _ h; simp [implication] at h
  | succ fuel ih =>
    intro g g' hne h
    rw [implication] at h
    split at h
    · simp only [Option.some.injEq, Prod.mk.injEq, true_and] at h
      rw [← h]
    · simp only [] at h
      split at h
      · split at h
        · simp at h
        · rename_i g2 c hrns
          split at h
          · simp at h
          · rename_i g3 himp
            simp only [Option.some.injEq, Prod.mk.injEq, true_and] at h
            obtain ⟨hrun, _⟩ := remove_node_successors_eq hrns
            have hfacts := removeEdgeList_facts _ _ _ hrun
            have hne2 : g2.sets ≠ [] := by
              rw [hfacts.2.1]
              exact (List.append_ne_nil_of_right_ne_nil _ (by simp))
            have hh := ih g2 g3 hne2 himp
            rw [← h, hh, hfacts.2.1]
            exact headD_append_singleton _ _ _ hne
          · simp at h
      · simp at h

/-- The candidate loop grows the driver level one node at a time, so a
successful pass returns a driver level of at most `k` nodes, provided the
recursive callee restores on failure and respects the bound on success. -/
theorem rcLoop_true_head_card_of (recur : SGraph → Nat → Option (Bool × SGraph))
    (hRes : ∀ (g : SGraph) (k : Nat) (g' : SGraph), edgesWF g →
      g.sets.headD ∅ ⊆ g.reachable → recur g k = some (false, g') → g' = g)
    (hCard : ∀ (g : SGraph) (k : Nat) (g' : SGraph), edgesWF g →
      g.sets.headD ∅ ⊆ g.reachable → (g.sets.headD ∅).card ≤ k →
      recur g k = some (true, g') → (g'.sets.headD ∅).card ≤ k) :
    ∀ (cands : List Nat) (g : SGraph) (k : Nat) (g' : SGraph), edgesWF g →
      g.sets.headD ∅ ⊆ g.reachable → (g.sets.headD ∅).card < k →
      rcLoop recur cands g k = some (true, g') → (g'.sets.headD ∅).card ≤ k := by
  intro cands
  induction cands with
  | nil =>
    intro g k g' _ _ _ h
    rw [rcLoop] at h
    simp at h
  | cons node rest ih =>
    intro g k g' hWF hHead hlt h
    rw [rcLoop] at h
    split at h
    · exact ih g k g' hWF hHead hlt h
    · rename_i hnode
      split at h
      · simp at h
      · rename_i s_0 restSets hsets
        simp only [] at h
        split at h
        · simp at h
        · rename_i g2 c hrns
          split at h
          · simp at h
          · rename_i g3 hrc
            simp only [Option.some.injEq, Prod.mk.injEq, true_and] at h
            set g1 : SGraph :=
              { g with
                  sets := insert node s_0 :: restSets
                  reachable := insert node g.reachable } with hg1
            obtain ⟨hrun, _⟩ := remove_node_successors_eq hrns
            have hfacts := removeEdgeList_facts _ _ _ hrun
            have hWF2 : edgesWF g2 := by
              intro e he
              have := hWF e (hfacts.2.2.2 he)
              rw [hfacts.1]
              exact this
            have hs0sub : s_0 ⊆ g.reachable := by
              have hh : g.sets.headD ∅ = s_0 := by rw [hsets]; rfl
              exact hh ▸ hHead
            have hHead2 : g2.sets.headD ∅ ⊆ g2.reachable := by
              rw [hfacts.2.1, hfacts.2.2.1]
              show insert node s_0 ⊆ insert node g.reachable
              exact Finset.insert_subset_insert _ hs0sub
            have hcard2 : (g2.sets.headD ∅).card ≤ k := by
              rw [hfacts.2.1]
              show (insert node s_0).card ≤ k
              have h1 : (g.sets.headD ∅).card = s_0.card := by rw [hsets]; rfl
              have h2 := Finset.card_insert_le node s_0
              omega
            rw [← h]
            exact hCard g2 k g3 hWF2 hHead2 hcard2 hrc
          · rename_i g3 hrc
            have hg3 : g3 = g2 := by
              set g1 : SGraph :=
                { g with
                    sets := insert node s_0 :: restSets
                    reachable := insert node g.reachable } with hg1
              obtain ⟨hrun, _⟩ := remove_node_successors_eq hrns
              have hfacts := removeEdgeList_facts _ _ _ hrun
              have hWF2 : edgesWF g2 := by
                intro e he
                have := hWF e (hfacts.2.2.2 he)
                rw [hfacts.1]
                exact this
              have hs0sub : s_0 ⊆ g.reachable := by
                have hh : g.sets.headD ∅ = s_0 := by rw [hsets]; rfl
                exact hh ▸ hHead
              have hHead2 : g2.sets.headD ∅ ⊆ g2.reachable := by
                rw [hfacts.2.1, hfacts.2.2.1]
                show insert node s_0 ⊆ insert node g.reachable
                exact Finset.insert_subset_insert _ hs0sub
              exact hRes g2 k g3 hWF2 hHead2 hrc
            rw [hg3] at h
            set g1 : SGraph :=
              { g with
                  sets := insert node s_0 :: restSets
                  reachable := insert node g.reachable } with hg1
            obtain ⟨hrun, hc⟩ := remove_node_successors_eq hrns
            have hfacts := removeEdgeList_facts _ _ _ hrun
            have hs0sub : s_0 ⊆ g.reachable := by
              have hh : g.sets.headD ∅ = s_0 := by rw [hsets]; rfl
              exact hh ▸ hHead
            split at h
            · simp at h
            · rename_i s0h rs hsets3
              split at h
              · rename_i hcond
                have hsets2 : g2.sets = insert node s_0 :: restSets := hfacts.2.1
                rw [hsets2] at hsets3
                obtain ⟨hs0h, hrs⟩ := List.cons.injEq .. ▸ hsets3
                have hnots0 : node ∉ s_0 := fun hmem => hnode (hs0sub hmem)
                have herase1 : s0h.erase node = s_0 := by
                  rw [← hs0h]
                  exact Finset.erase_insert hnots0
                have herase2 : g2.reachable.erase node = g.reachable := by
                  rw [hfacts.2.2.1]
                  exact Finset.erase_insert hnode
                have hmem : ∀ e ∈ successorList g1 {node},
                    e ∈ g1.edges ∧ e.1 ∈ g1.nodes ∧ e.2 ∈ g1.nodes := by
                  intro e he
                  have hm := mem_successorList.1 he
                  exact ⟨hm.2, (hWF e hm.2).1, (hWF e hm.2).2⟩
                have hundo := restore_undoes_removeEdgeList _ g1 g2
                  (successorList_nodup g1 {node}) hmem hrun g.sets g.reachable
                rw [herase1, herase2, ← hrs, ← hsets, hc, hundo] at h
                have hgeta : ({ g1 with sets := g.sets, reachable := g.reachable } : SGraph)
                    = g := rfl
                rw [hgeta] at h
                exact ih g k g' hWF hHead hlt h
              · simp at h

/-- If `run_combination` succeeds with the driver level at most `k` on
entry, the driver level it returns has at most `k` nodes. -/
theorem run_combination_true_head_card :
    ∀ (fuel : Nat) (g : SGraph) (k : Nat) (g' : SGraph), edgesWF g →
      g.sets.headD ∅ ⊆ g.reachable →
      (g.sets.headD ∅).card ≤ k →
      run_combination fuel g k = some (true, g') →
      (g'.sets.headD ∅).card ≤ k := by
  intro fuel
  induction fuel with
  | zero => intro g k g' _ _ _ h; simp [run_combination] at h
  | succ fuel ih =>
    intro g k g' hWF hHead hcard h
    rw [run_combination] at h
    split at h
    · simp at h
    · rename_i s_0 restTail hsets
      split at h
      · have hne : g.sets ≠ [] := by rw [hsets]; simp
        rw [implication_true_head fuel g g' hne h]
        exact hcard
      · rename_i hlt
        have hlt' : (g.sets.headD ∅).card < k := by
          have hh : g.sets.headD ∅ = s_0 := by rw [hsets]; rfl
          rw [hh]
          omega
        exact rcLoop_true_head_card_of (run_combination fuel)
          (fun g k g' hW hH hr => run_combination_restores_aux fuel g k g' hW hH hr)
          (fun g k g' hW hH hc hr => ih g k g' hW hH hc hr)
          _ g k g' hWF hHead hlt' h

/-- Structure of a successful initialization: `sets = [s_0]`,
`reachable = s_0`, same nodes, fewer edges. -/
theorem initState_facts {g g2 : SGraph} (h : initState g = some g2) :
    g2.sets = [get_zero_indegree_nodes g] ∧
      g2.reachable = get_zero_indegree_nodes g ∧
      g2.nodes = g.nodes ∧ g2.edges ⊆ g.edges := by
  unfold initState at h
  rw [Option.map_eq_some'] at h
  obtain ⟨⟨p1, p2⟩, hrns, hp⟩ := h
  obtain ⟨hrun, _⟩ := remove_node_successors_eq hrns
  have hfacts := removeEdgeList_facts _ _ _ hrun
  subst hp
  exact ⟨hfacts.2.1, hfacts.2.2.1, hfacts.1, hfacts.2.2.2⟩

/-- Trace of a successful escalation loop: some `k` in the list succeeded,
the returned driver set is that call's `sets[0]`, and every smaller size in
the (strictly sorted) list was tried first and failed, leaving the state
untouched. -/
theorem ksLoop_min :
    ∀ (ks : List Nat) (g2 : SGraph) (fuel : Nat) (D : Finset Nat),
      edgesWF g2 → g2.sets.headD ∅ ⊆ g2.reachable → List.Sorted (· < ·) ks →
      ksLoop g2 ks fuel = some (D, true) →
      ∃ k, k ∈ ks ∧
        (∃ gt, run_combination fuel g2 k = some (true, gt) ∧ D = gt.sets.headD ∅) ∧
        ∀ j ∈ ks, j < k → run_combination fuel g2 j = some (false, g2) := by
  intro ks
  induction ks with
  | nil =>
    intro g2 fuel D _ _ _ h
    simp [ksLoop] at h
  | cons k0 rest ih =>
    intro g2 fuel D hWF hHead hsort h
    rw [ksLoop] at h
    split at h
    · simp at h
    · rename_i gt hrc
      simp only [Option.some.injEq, Prod.mk.injEq, and_true] at h
      refine ⟨k0, by simp, ⟨gt, hrc, h.symm⟩, ?_⟩
      intro j hj hjlt
      rcases List.mem_cons.1 hj with rfl | hjr
      · omega
      · have := (List.sorted_cons.1 hsort).1 j hjr
        omega
    · rename_i g'' hrc
      have hg'' : g'' = g2 := run_combination_restores_aux fuel g2 k0 g'' hWF hHead hrc
      rw [hg''] at h hrc
      obtain ⟨k, hkmem, hksucc, hkprior⟩ :=
        ih g2 fuel D hWF hHead (List.sorted_cons.1 hsort).2 h
      refine ⟨k, by simp [hkmem], hksucc, ?_⟩
      intro j hj hjlt
      rcases List.mem_cons.1 hj with rfl | hjr
      · exact hrc
      · exact hkprior j hjr hjlt

/-! ### Toward independent re-verification of a returned driver set -/

/-- A successful removal loop removes exactly the listed edges. -/
theorem removeEdgeList_edges :
    ∀ (L : List (Nat × Nat)) (g g' : SGraph), removeEdgeList g L = some g' →
      g'.edges = g.edges \ L.toFinset := by
  intro L
  induction L with
  | nil =>
    intro g g' h
    simp only [removeEdgeList, Option.some.injEq] at h
    subst h
    simp
  | cons e es ih =>
    intro g g' h
    simp only [removeEdgeList, remove_edge, Option.bind_eq_bind] at h
    split at h
    · rw [Option.some_bind] at h
      rw [ih _ _ h]
      ext a
      simp only [Finset.mem_sdiff, Finset.mem_erase, List.toFinset_cons, Finset.mem_insert,
        List.mem_toFinset]
      constructor
      · rintro ⟨⟨hne, hmem⟩, hnotes⟩
        exact ⟨hmem, by rintro (rfl | hc) <;> [exact hne rfl; exact hnotes hc]⟩
      · rintro ⟨hmem, hnot⟩
        exact ⟨⟨fun hc => hnot (Or.inl hc), hmem⟩, fun hc => hnot (Or.inr hc)⟩
    · simp at h

/-- The successor list, as a set, is the out-edge set of the given nodes. -/
theorem toFinset_successorList (g : SGraph) (s : Finset Nat) :
    (successorList g s).toFinset = g.edges.filter (fun e => e.1 ∈ s) := by
  ext e
  rw [List.mem_toFinset, mem_successorList, Finset.mem_filter]
  exact ⟨fun h => ⟨h.2, h.1⟩, fun h => ⟨h.2, h.1⟩⟩

/-- The removal loop keeps the cache consistent. -/
theorem cacheOK_removeEdgeList :
    ∀ (L : List (Nat × Nat)) (g g' : SGraph), cacheOK g →
      removeEdgeList g L = some g' → cacheOK g' := by
  intro L
  induction L with
  | nil =>
    intro g g' hok h
    simp only [removeEdgeList, Option.some.injEq] at h
    subst h
    exact hok
  | cons e es ih =>
    intro g g' hok h
    simp only [removeEdgeList, Option.bind_eq_bind] at h
    cases hrem : remove_edge g e.1 e.2 with
    | none => rw [hrem] at h; simp at h
    | some g1 =>
      rw [hrem, Option.some_bind] at h
      exact ih g1 g' (cacheOK_remove_edge hok hrem) h

/-- Under a consistent cache, the zero-in-degree query over the cache agrees
with the true zero-in-degree set. -/
theorem zeroIndeg_of_cacheOK {g : SGraph} (hok : cacheOK g) :
    get_zero_indegree_nodes g
      = (g.nodes.filter (fun v => inDeg g v = 0)) \ g.reachable := by
  obtain ⟨hnd, hkeys, hval⟩ := hok
  unfold get_zero_indegree_nodes
  ext v
  simp only [Finset.mem_sdiff, List.mem_toFinset, List.mem_map, List.mem_filter,
    Finset.mem_filter]
  constructor
  · rintro ⟨⟨p, ⟨hp, hp0⟩, rfl⟩, hnr⟩
    refine ⟨⟨?_, ?_⟩, hnr⟩
    · rw [← hkeys, List.mem_toFinset]
      exact List.mem_map.2 ⟨p, hp, rfl⟩
    · have := hval p hp
      rw [this] at hp0
      exact_mod_cast by simpa using hp0
  · rintro ⟨⟨hvn, hv0⟩, hnr⟩
    refine ⟨?_, hnr⟩
    rw [← hkeys, List.mem_toFinset] at hvn
    obtain ⟨p, hp, hpv⟩ := List.mem_map.1 hvn
    refine ⟨p, ⟨hp, ?_⟩, hpv⟩
    rw [hval p hp, hpv, hv0]
    rfl

/-- Under a consistent cache, the zero-in-degree frontier consists of
nodes. -/
theorem zeroIndeg_subset_nodes {g : SGraph} (hok : cacheOK g) :
    get_zero_indegree_nodes g ⊆ g.nodes := by
  rw [zeroIndeg_of_cacheOK hok]
  intro v hv
  exact (Finset.mem_filter.1 (Finset.mem_sdiff.1 hv).1).1

/-- More fuel never changes a result the cascade already produced. -/
theorem implication_mono :
    ∀ (f F : Nat) (g : SGraph) (r : Bool × SGraph), f ≤ F →
      implication g f = some r → implication g F = some r := by
  intro f
  induction f with
  | zero => intro F g r _ h; simp [implication] at h
  | succ f ih =>
    intro F g r hle h
    cases F with
    | zero => omega
    | succ F =>
      rw [implication] at h ⊢
      by_cases hc : g.reachable.card = g.nodes.card
      · rw [if_pos hc] at h ⊢
        exact h
      · rw [if_neg hc] at h ⊢
        by_cases hne : (get_zero_indegree_nodes g).Nonempty
        · rw [if_pos hne] at h ⊢
          have h' : (match remove_node_successors
              { g with sets := g.sets ++ [get_zero_indegree_nodes g],
                       reachable := g.reachable ∪ get_zero_indegree_nodes g }
              (get_zero_indegree_nodes g) with
            | none => none
            | some (g2, edge_count) =>
              match implication g2 f with
              | none => none
              | some (true, g3) => some (true, g3)
              | some (false, g3) =>
                some (false, restoreN
                  { g3 with sets := g3.sets.dropLast,
                            reachable := g3.reachable \ get_zero_indegree_nodes g }
                  edge_count)) = some r := h
          show (match remove_node_successors
              { g with sets := g.sets ++ [get_zero_indegree_nodes g],
                       reachable := g.reachable ∪ get_zero_indegree_nodes g }
              (get_zero_indegree_nodes g) with
            | none => none
            | some (g2, edge_count) =>
              match implication g2 F with
              | none => none
              | some (true, g3) => some (true, g3)
              | some (false, g3) =>
                some (false, restoreN
                  { g3 with sets := g3.sets.dropLast,
                            reachable := g3.reachable \ get_zero_indegree_nodes g }
                  edge_count)) = some r
          clear h
          cases hrns : remove_node_successors
              { g with sets := g.sets ++ [get_zero_indegree_nodes g],
                       reachable := g.reachable ∪ get_zero_indegree_nodes g }
              (get_zero_indegree_nodes g) with
          | none => rw [hrns] at h'; simp at h'
          | some p =>
            obtain ⟨g2, c⟩ := p
            rw [hrns] at h'
            have h'' : (match implication g2 f with
                | none => none
                | some (true, g3) => some (true, g3)
                | some (false, g3) =>
                  some (false, restoreN
                    { g3 with sets := g3.sets.dropLast,
                              reachable := g3.reachable \ get_zero_indegree_nodes g } c))
                = some r := h'
            show (match implication g2 F with
                | none => none
                | some (true, g3) => some (true, g3)
                | some (false, g3) =>
                  some (false, restoreN
                    { g3 with sets := g3.sets.dropLast,
                              reachable := g3.reachable \ get_zero_indegree_nodes g } c))
                = some r
            cases himp : implication g2 f with
            | none => rw [himp] at h''; simp at h''
            | some r2 =>
              rw [himp] at h''
              rw [ih F g2 r2 (by omega) himp]
              exact h''
        · rw [if_neg hne] at h ⊢
          exact h

/-- The successor list depends only on the edge set. -/
theorem successorList_eq_of_edges {g h : SGraph} (s : Finset Nat)
    (he : g.edges = h.edges) : successorList g s = successorList h s := by
  unfold successorList successors
  rw [he]

/-- Two states with the same nodes and edges run the removal loop in
lockstep. -/
theorem removeEdgeList_det :
    ∀ (L : List (Nat × Nat)) (g h : SGraph), g.nodes = h.nodes → g.edges = h.edges →
      (removeEdgeList g L).map (fun x => (x.nodes, x.edges))
        = (removeEdgeList h L).map (fun x => (x.nodes, x.edges)) := by
  intro L
  induction L with
  | nil =>
    intro g h hn he
    simp [removeEdgeList, hn, he]
  | cons e es ih =>
    intro g h hn he
    simp only [removeEdgeList, Option.bind_eq_bind]
    unfold remove_edge
    by_cases hmem : (e.1, e.2) ∈ g.edges
    · rw [if_pos hmem, if_pos (he ▸ hmem), Option.some_bind, Option.some_bind]
      exact ih _ _ hn (by rw [he])
    · rw [if_neg hmem, if_neg (he ▸ hmem)]

/-- Unfolding equation for the cascade: immediate success. -/
theorem implication_eq_done {g : SGraph} (fuel : Nat)
    (hc : g.reachable.card = g.nodes.card) :
    implication g (fuel + 1) = some (true, g) := by
  rw [implication, if_pos hc]

/-- Unfolding equation for the cascade: dead end. -/
theorem implication_eq_deadend {g : SGraph} (fuel : Nat)
    (hc : ¬g.reachable.card = g.nodes.card)
    (hne : ¬(get_zero_indegree_nodes g).Nonempty) :
    implication g (fuel + 1) = some (false, g) := by
  rw [implication, if_neg hc, if_neg hne]

/-- Unfolding equation for the cascade: the peeling step. -/
theorem implication_eq_step {g : SGraph} (fuel : Nat)
    (hc : ¬g.reachable.card = g.nodes.card)
    (hne : (get_zero_indegree_nodes g).Nonempty) :
    implication g (fuel + 1)
      = match (removeEdgeList
            { g with sets := g.sets ++ [get_zero_indegree_nodes g],
                     reachable := g.reachable ∪ get_zero_indegree_nodes g }
            (successorList
              { g with sets := g.sets ++ [get_zero_indegree_nodes g],
                       reachable := g.reachable ∪ get_zero_indegree_nodes g }
              (get_zero_indegree_nodes g))).map
          (fun g' => (g', (successorList
              { g with sets := g.sets ++ [get_zero_indegree_nodes g],
                       reachable := g.reachable ∪ get_zero_indegree_nodes g }
              (get_zero_indegree_nodes g)).length)) with
        | none => none
        | some (g2, edge_count) =>
          match implication g2 fuel with
          | none => none
          | some (true, g3) => some (true, g3)
          | some (false, g3) =>
            some (false, restoreN
              { g3 with sets := g3.sets.dropLast,
                        reachable := g3.reachable \ get_zero_indegree_nodes g }
              edge_count) := by
  rw [implication, if_neg hc, if_pos hne]
  rfl

/-- The cascade's verdict and its effect on nodes, edges and `reachable`
depend only on nodes, edges and `reachable`, whenever both caches are
consistent: two such states run in lockstep. -/
theorem implication_core_det :
    ∀ (fuel : Nat) (g h : SGraph),
      g.nodes = h.nodes → g.edges = h.edges → g.reachable = h.reachable →
      cacheOK g → cacheOK h → edgesWF g → edgesWF h →
      (implication g fuel).map (fun r => (r.1, r.2.nodes, r.2.edges, r.2.reachable))
        = (implication h fuel).map
            (fun r => (r.1, r.2.nodes, r.2.edges, r.2.reachable)) := by
  intro fuel
  induction fuel with
  | zero => intro g h _ _ _ _ _ _ _; simp [implication]
  | succ fuel ih =>
    intro g h hn he hr hokg hokh hwg hwh
    have hdeg : ∀ v, inDeg g v = inDeg h v := by
      intro v
      unfold inDeg
      rw [he]
    have hsi : get_zero_indegree_nodes g = get_zero_indegree_nodes h := by
      rw [zeroIndeg_of_cacheOK hokg, zeroIndeg_of_cacheOK hokh, hn, hr]
      congr 1
      refine Finset.filter_congr ?_
      intro v _
      rw [hdeg v]
    by_cases hc : g.reachable.card = g.nodes.card
    · have hch : h.reachable.card = h.nodes.card := by rw [← hn, ← hr]; exact hc
      rw [implication_eq_done fuel hc, implication_eq_done fuel hch]
      simp [hn, he, hr]
    · have hch : ¬h.reachable.card = h.nodes.card := by rw [← hn, ← hr]; exact hc
      by_cases hne : (get_zero_indegree_nodes g).Nonempty
      · have hneh : (get_zero_indegree_nodes h).Nonempty := hsi ▸ hne
        rw [implication_eq_step fuel hc hne, implication_eq_step fuel hch hneh]
        set s_i := get_zero_indegree_nodes g with hsidef
        set g1 : SGraph :=
          { g with sets := g.sets ++ [s_i], reachable := g.reachable ∪ s_i } with hg1
        set h1 : SGraph :=
          { h with sets := h.sets ++ [get_zero_indegree_nodes h],
                   reachable := h.reachable ∪ get_zero_indegree_nodes h } with hh1
        have hn1 : g1.nodes = h1.nodes := hn
        have he1 : g1.edges = h1.edges := he
        have hr1 : g1.reachable = h1.reachable := by
          show g.reachable ∪ s_i = h.reachable ∪ get_zero_indegree_nodes h
          rw [hr, hsi]
        have hsl : successorList g1 s_i = successorList h1 (get_zero_indegree_nodes h) := by
          rw [← hsi]
          exact successorList_eq_of_edges _ he1
        have hdet := removeEdgeList_det (successorList g1 s_i) g1 h1 hn1 he1
        rw [← hsl]
        cases hrung : removeEdgeList g1 (successorList g1 s_i) with
        | none =>
          rw [hrung] at hdet
          cases hrunh : removeEdgeList h1 (successorList g1 s_i) with
          | none => rfl
          | some h2 => rw [hrunh] at hdet; simp at hdet
        | some g2 =>
          rw [hrung] at hdet
          cases hrunh : removeEdgeList h1 (successorList g1 s_i) with
          | none => rw [hrunh] at hdet; simp at hdet
          | some h2 =>
            rw [hrunh] at hdet
            simp only [Option.map_some', Option.some.injEq, Prod.mk.injEq] at hdet
            simp only [Option.map_some']
            have hfg := removeEdgeList_facts _ _ _ hrung
            have hfh := removeEdgeList_facts _ _ _ hrunh
            have hokg1 : cacheOK g1 := hokg
            have hokh1 : cacheOK h1 := hokh
            have hokg2 : cacheOK g2 := cacheOK_removeEdgeList _ _ _ hokg1 hrung
            have hokh2 : cacheOK h2 := cacheOK_removeEdgeList _ _ _ hokh1 hrunh
            have hwg2 : edgesWF g2 := by
              intro e hee
              have := hwg e (hfg.2.2.2 hee)
              rw [hfg.1]
              exact this
            have hwh2 : edgesWF h2 := by
              intro e hee
              have := hwh e (hfh.2.2.2 hee)
              rw [hfh.1]
              exact this
            have hr2 : g2.reachable = h2.reachable := by
              rw [hfg.2.2.1, hfh.2.2.1]
              exact hr1
            have ihx := ih g2 h2 (hdet.1 ▸ rfl) hdet.2 hr2 hokg2 hokh2 hwg2 hwh2
            cases himg : implication g2 fuel with
            | none =>
              rw [himg] at ihx
              cases himh : implication h2 fuel with
              | none => rfl
              | some rh => rw [himh] at ihx; simp at ihx
            | some rg =>
              rw [himg] at ihx
              cases himh : implication h2 fuel with
              | none => rw [himh] at ihx; simp at ihx
              | some rh =>
                rw [himh] at ihx
                simp only [Option.map_some', Option.some.injEq] at ihx
                obtain ⟨bg, g3⟩ := rg
                obtain ⟨bh, h3⟩ := rh
                simp only [Prod.mk.injEq] at ihx
                obtain ⟨hb, hcore⟩ := ihx
                cases bg with
                | true =>
                  rw [← hb]
                  simp only [Option.map_some']
                  simp [hcore.1, hcore.2.1, hcore.2.2]
                | false =>
                  rw [← hb]
                  have hg3 : g3 = g2 := implication_restores_aux fuel g2 g3 hwg2 himg
                  have hh3 : h3 = h2 :=
                    implication_restores_aux fuel h2 h3 hwh2 (hb ▸ himh)
                  subst hg3
                  subst hh3
                  have hmemg : ∀ e ∈ successorList g1 s_i,
                      e ∈ g1.edges ∧ e.1 ∈ g1.nodes ∧ e.2 ∈ g1.nodes := by
                    intro e hee
                    have hm := mem_successorList.1 hee
                    exact ⟨hm.2, (hwg e hm.2).1, (hwg e hm.2).2⟩
                  have hmemh : ∀ e ∈ successorList g1 s_i,
                      e ∈ h1.edges ∧ e.1 ∈ h1.nodes ∧ e.2 ∈ h1.nodes := by
                    intro e hee
                    have hm := mem_successorList.1 hee
                    rw [← he1, ← hn1]
                    exact ⟨hm.2, (hwg e hm.2).1, (hwg e hm.2).2⟩
                  have hundog := restore_undoes_removeEdgeList _ g1 g3
                    (successorList_nodup g1 s_i) hmemg hrung g.sets g.reachable
                  have hundoh := restore_undoes_removeEdgeList _ h1 h3
                    (successorList_nodup g1 s_i) hmemh hrunh h.sets h.reachable
                  have hsetsg : g3.sets.dropLast = g.sets := by
                    rw [hfg.2.1]
                    exact List.dropLast_concat
                  have hsetsh : h3.sets.dropLast = h.sets := by
                    rw [hfh.2.1]
                    exact List.dropLast_concat
                  have hreachg : g3.reachable \ s_i = g.reachable := by
                    rw [hfg.2.2.1]
                    exact Finset.union_sdiff_cancel_right Finset.disjoint_sdiff
                  have hreachh : h3.reachable \ get_zero_indegree_nodes h = h.reachable := by
                    rw [hfh.2.2.1]
                    exact Finset.union_sdiff_cancel_right Finset.disjoint_sdiff
                  show Option.map (fun r => (r.1, r.2.nodes, r.2.edges, r.2.reachable))
                      (some (false, restoreN
                        { g3 with sets := g3.sets.dropLast, reachable := g3.reachable \ s_i }
                        (successorList g1 s_i).length))
                    = Option.map (fun r => (r.1, r.2.nodes, r.2.edges, r.2.reachable))
                      (some (false, restoreN
                        { h3 with sets := h3.sets.dropLast,
                                  reachable := h3.reachable \ get_zero_indegree_nodes h }
                        (successorList g1 s_i).length))
                  rw [hsetsg, hsetsh, hreachg, hreachh, hundog, hundoh]
                  simp [hn, he, hr]
      · have hneh : ¬(get_zero_indegree_nodes h).Nonempty := hsi ▸ hne
        rw [implication_eq_deadend fuel hc hne, implication_eq_deadend fuel hch hneh]
        simp [hn, he, hr]

/-- A cascade that succeeds over a consistent, well-formed store reaches
every node. -/
theorem implication_true_reachable :
    ∀ (fuel : Nat) (g g' : SGraph), cacheOK g → edgesWF g →
      g.reachable ⊆ g.nodes →
      implication g fuel = some (true, g') →
      g'.reachable = g'.nodes ∧ g'.nodes = g.nodes := by
  intro fuel
  induction fuel with
  | zero => intro g g' _ _ _ h; simp [implication] at h
  | succ fuel ih =>
    intro g g' hok hWF hsub h
    rw [implication] at h
    split at h
    · rename_i hcard
      simp only [Option.some.injEq, Prod.mk.injEq, true_and] at h
      subst h
      exact ⟨Finset.eq_of_subset_of_card_le hsub (le_of_eq hcard.symm), rfl⟩
    · simp only [] at h
      split at h
      · split at h
        · simp at h
        · rename_i g2 c hrns
          split at h
          · simp at h
          · rename_i g3 himp
            simp only [Option.some.injEq, Prod.mk.injEq, true_and] at h
            subst h
            obtain ⟨hrun, _⟩ := remove_node_successors_eq hrns
            have hfacts := removeEdgeList_facts _ _ _ hrun
            have hok1 : cacheOK { g with
                sets := g.sets ++ [get_zero_indegree_nodes g],
                reachable := g.reachable ∪ get_zero_indegree_nodes g } := hok
            have hok2 : cacheOK g2 := cacheOK_removeEdgeList _ _ _ hok1 hrun
            have hWF2 : edgesWF g2 := by
              intro e he
              have := hWF e (hfacts.2.2.2 he)
              rw [hfacts.1]
              exact this
            have hsub2 : g2.reachable ⊆ g2.nodes := by
              rw [hfacts.2.2.1, hfacts.1]
              show g.reachable ∪ get_zero_indegree_nodes g ⊆ g.nodes
              exact Finset.union_subset hsub (zeroIndeg_subset_nodes hok)
            have := ih g2 g3 hok2 hWF2 hsub2 himp
            exact ⟨this.1, this.2.trans hfacts.1⟩
          · simp at h
      · simp at h

/-- Membership in a descending insertion. -/
theorem mem_insertDesc {x y : Int × Nat} {l : List (Int × Nat)} :
    y ∈ insertDesc x l ↔ y = x ∨ y ∈ l := by
  induction l with
  | nil => simp [insertDesc]
  | cons a as ih =>
    rw [insertDesc]
    split
    · simp [List.mem_cons]
    · simp only [List.mem_cons, ih]
      tauto

/-- The descending sort is a permutation: same members. -/
theorem mem_sortDesc {y : Int × Nat} {l : List (Int × Nat)} :
    y ∈ sortDesc l ↔ y ∈ l := by
  induction l with
  | nil => simp [sortDesc]
  | cons a as ih =>
    show y ∈ insertDesc a (sortDesc as) ↔ _
    rw [mem_insertDesc, ih, List.mem_cons]

/-- Every returned candidate is an unreached node of the graph. -/
theorem mem_find_candidates {g : SGraph} {m n : Nat}
    (h : n ∈ find_candidates g m) : n ∈ g.nodes ∧ n ∉ g.reachable := by
  simp only [find_candidates] at h
  rw [List.mem_map] at h
  obtain ⟨p, hp, rfl⟩ := h
  have hp' := List.mem_of_mem_take hp
  rw [mem_sortDesc, List.mem_map] at hp'
  obtain ⟨v, hv, rfl⟩ := hp'
  rw [mem_sortNat, Finset.mem_sdiff] at hv
  exact hv

/-- A successful initialization establishes the search-state invariant. -/
theorem GoodFrom_initState {g g2 : SGraph} (hok : cacheOK g) (hWF : edgesWF g)
    (h : initState g = some g2) : GoodFrom g g2 := by
  simp only [initState] at h
  rw [Option.map_eq_some'] at h
  obtain ⟨⟨p1, p2⟩, hrns, hp⟩ := h
  obtain ⟨hrun, _⟩ := remove_node_successors_eq hrns
  subst hp
  set s_0 := get_zero_indegree_nodes g with hs0
  set g1 : SGraph := { g with sets := [s_0], reachable := s_0 } with hg1
  have hfacts := removeEdgeList_facts _ _ _ hrun
  have hE := removeEdgeList_edges _ _ _ hrun
  rw [toFinset_successorList] at hE
  have hg1e : g1.edges = g.edges := rfl
  rw [hg1e] at hE
  refine ⟨hfacts.1, ?_, ?_, ?_, ?_, ?_⟩
  · rw [hfacts.2.1, hfacts.2.2.1]
  · rw [hE, hfacts.2.2.1]
  · rw [hfacts.2.2.1, hfacts.1]
    show s_0 ⊆ g.nodes
    exact zeroIndeg_subset_nodes hok
  · have hok1 : cacheOK g1 := hok
    exact cacheOK_removeEdgeList _ _ _ hok1 hrun
  · intro e he
    have := hWF e (hfacts.2.2.2 he)
    rw [hfacts.1]
    exact this

/-- More fuel never invalidates a verification run that already
succeeded. -/
theorem verify_mono {g0 : SGraph} {D : Finset Nat} {f F : Nat} (hle : f ≤ F)
    (h : (implication (verifyState g0 D) f).map (fun r => (r.1, r.2.reachable))
      = some (true, g0.nodes)) :
    (implication (verifyState g0 D) F).map (fun r => (r.1, r.2.reachable))
      = some (true, g0.nodes) := by
  rw [Option.map_eq_some'] at h
  obtain ⟨r, hr, hp⟩ := h
  rw [implication_mono f F _ r hle hr, Option.map_some', hp]

/-- If a cascade succeeds from a stable search state, the independent
verification run on a fresh copy of the original graph (with the state's
`reachable` as claimed driver set) also succeeds and reaches every node. -/
theorem verify_from_good {g0 g g' : SGraph} {f : Nat}
    (hgf : GoodFrom g0 g)
    (himp : implication g f = some (true, g')) :
    (implication (verifyState g0 g.reachable) f).map
        (fun r => (r.1, r.2.reachable)) = some (true, g0.nodes) := by
  set v := verifyState g0 g.reachable with hv
  have hvn : v.nodes = g.nodes := by rw [hgf.1]; rfl
  have hve : v.edges = g.edges := by rw [hgf.2.2.1]; rfl
  have hvr : v.reachable = g.reachable := rfl
  have hokv : cacheOK v := cacheOK_of_refresh v rfl
  have hwv : edgesWF v := by
    intro e he
    rw [hve] at he
    have := hgf.2.2.2.2.2 e he
    rw [hvn]
    exact this
  have hdet := implication_core_det f v g hvn hve hvr hokv hgf.2.2.2.2.1 hwv
    hgf.2.2.2.2.2
  rw [himp] at hdet
  simp only [Option.map_some'] at hdet
  rw [Option.map_eq_some'] at hdet
  obtain ⟨r, hr, hp⟩ := hdet
  simp only [Prod.mk.injEq] at hp
  have htr := implication_true_reachable f g g' hgf.2.2.2.2.1 hgf.2.2.2.2.2
    hgf.2.2.2.1 himp
  rw [hr, Option.map_some']
  simp only [Option.some.injEq, Prod.mk.injEq]
  refine ⟨hp.1, ?_⟩
  rw [hp.2.2.2, htr.1, htr.2, hgf.1]

/-- The candidate loop preserves verifiability: a successful pass hands back
a driver level whose independent verification run succeeds, provided the
recursive callee restores on failure and verifies on success. -/
theorem rcLoop_verify_of (g0 : SGraph) (F : Nat)
    (recur : SGraph → Nat → Option (Bool × SGraph))
    (hRes : ∀ (g : SGraph) (k : Nat) (g' : SGraph), edgesWF g →
      g.sets.headD ∅ ⊆ g.reachable → recur g k = some (false, g') → g' = g)
    (hVer : ∀ (g : SGraph) (k : Nat) (g' : SGraph), GoodFrom g0 g →
      recur g k = some (true, g') →
      (implication (verifyState g0 (g'.sets.headD ∅)) F).map
          (fun r => (r.1, r.2.reachable)) = some (true, g0.nodes)) :
    ∀ (cands : List Nat) (g : SGraph) (k : Nat) (g' : SGraph),
      GoodFrom g0 g → (∀ n ∈ cands, n ∈ g0.nodes) →
      rcLoop recur cands g k = some (true, g') →
      (implication (verifyState g0 (g'.sets.headD ∅)) F).map
          (fun r => (r.1, r.2.reachable)) = some (true, g0.nodes) := by
  intro cands
  induction cands with
  | nil =>
    intro g k g' _ _ h
    rw [rcLoop] at h
    simp at h
  | cons node rest ih =>
    intro g k g' hgf hcand h
    rw [rcLoop] at h
    split at h
    · exact ih g k g' hgf (fun n hn => hcand n (List.mem_cons_of_mem _ hn)) h
    · rename_i hnode
      split at h
      · simp at h
      · rename_i s_0 restSets hsets
        have hcons : s_0 :: restSets = [g.reachable] := by
          rw [← hsets]
          exact hgf.2.1
        obtain ⟨hs0, hrest⟩ := List.cons.injEq .. ▸ hcons
        have hnodeN : node ∈ g0.nodes := hcand node (List.mem_cons_self _ _)
        simp only [] at h
        split at h
        · simp at h
        · rename_i g2 c hrns
          set g1 : SGraph :=
            { g with
                sets := insert node s_0 :: restSets
                reachable := insert node g.reachable } with hg1
          obtain ⟨hrun, hc⟩ := remove_node_successors_eq hrns
          have hfacts := removeEdgeList_facts _ _ _ hrun
          have hWF : edgesWF g := hgf.2.2.2.2.2
          have hWF2 : edgesWF g2 := by
            intro e he
            have := hWF e (hfacts.2.2.2 he)
            rw [hfacts.1]
            exact this
          have hHead2 : g2.sets.headD ∅ ⊆ g2.reachable := by
            rw [hfacts.2.1, hfacts.2.2.1]
            show insert node s_0 ⊆ insert node g.reachable
            exact Finset.insert_subset_insert _ (by rw [hs0])
          split at h
          · simp at h
          · rename_i g3 hrc
            simp only [Option.some.injEq, Prod.mk.injEq, true_and] at h
            have hGood2 : GoodFrom g0 g2 := by
              have hE := removeEdgeList_edges _ _ _ hrun
              rw [toFinset_successorList] at hE
              have hg1e : g1.edges = g.edges := rfl
              rw [hg1e] at hE
              refine ⟨?_, ?_, ?_, ?_, ?_, hWF2⟩
              · rw [hfacts.1]
                show g.nodes = g0.nodes
                exact hgf.1
              · rw [hfacts.2.1, hfacts.2.2.1]
                show insert node s_0 :: restSets = [insert node g.reachable]
                rw [hs0, hrest]
              · rw [hE, hfacts.2.2.1]
                have hg1r : g1.reachable = insert node g.reachable := rfl
                rw [hg1r, hgf.2.2.1]
                ext e
                simp only [Finset.mem_sdiff, Finset.mem_filter, Finset.mem_insert,
                  Finset.mem_singleton]
                tauto
              · rw [hfacts.2.2.1, hfacts.1]
                show insert node g.reachable ⊆ g.nodes
                refine Finset.insert_subset_iff.2 ⟨?_, hgf.2.2.2.1⟩
                rw [hgf.1]
                exact hnodeN
              · have hok1 : cacheOK g1 := hgf.2.2.2.2.1
                exact cacheOK_removeEdgeList _ _ _ hok1 hrun
            rw [← h]
            exact hVer g2 k g3 hGood2 hrc
          · rename_i g3 hrc
            have hg3 : g3 = g2 := hRes g2 k g3 hWF2 hHead2 hrc
            rw [hg3] at h
            have hs0sub : s_0 ⊆ g.reachable := by
              rw [hs0]
            split at h
            · simp at h
            · rename_i s0h rs hsets3
              split at h
              · rename_i hcond
                have hsets2 : g2.sets = insert node s_0 :: restSets := hfacts.2.1
                rw [hsets2] at hsets3
                obtain ⟨hs0h, hrs⟩ := List.cons.injEq .. ▸ hsets3
                have hnots0 : node ∉ s_0 := fun hmem => hnode (hs0sub hmem)
                have herase1 : s0h.erase node = s_0 := by
                  rw [← hs0h]
                  exact Finset.erase_insert hnots0
                have herase2 : g2.reachable.erase node = g.reachable := by
                  rw [hfacts.2.2.1]
                  exact Finset.erase_insert hnode
                have hmem : ∀ e ∈ successorList g1 {node},
                    e ∈ g1.edges ∧ e.1 ∈ g1.nodes ∧ e.2 ∈ g1.nodes := by
                  intro e he
                  have hm := mem_successorList.1 he
                  exact ⟨hm.2, (hWF e hm.2).1, (hWF e hm.2).2⟩
                have hundo := restore_undoes_removeEdgeList _ g1 g2
                  (successorList_nodup g1 {node}) hmem hrun g.sets g.reachable
                rw [herase1, herase2, ← hrs, ← hsets, hc, hundo] at h
                have hgeta : ({ g1 with sets := g.sets, reachable := g.reachable } :
                    SGraph) = g := rfl
                rw [hgeta] at h
                exact ih g k g' hgf
                  (fun n hn => hcand n (List.mem_cons_of_mem _ hn)) h
              · simp at h

/-- A successful `run_combination` pass from a stable search state hands
back a driver level `sets[0]` whose independent verification run (from a
fresh copy of the original graph) succeeds and reaches every node. -/
theorem run_combination_verify :
    ∀ (fuel : Nat) (g0 g : SGraph) (k : Nat) (g' : SGraph),
      GoodFrom g0 g →
      run_combination fuel g k = some (true, g') →
      (implication (verifyState g0 (g'.sets.headD ∅)) fuel).map
          (fun r => (r.1, r.2.reachable)) = some (true, g0.nodes) := by
  intro fuel
  induction fuel with
  | zero => intro g0 g k g' _ h; simp [run_combination] at h
  | succ fuel ih =>
    intro g0 g k g' hgf h
    rw [run_combination] at h
    split at h
    · simp at h
    · rename_i s_0 restTail hsets
      split at h
      · have hne : g.sets ≠ [] := by rw [hsets]; simp
        have hD : g'.sets.headD ∅ = g.reachable := by
          rw [implication_true_head fuel g g' hne h, hgf.2.1]
          rfl
        rw [hD]
        exact verify_mono (Nat.le_succ fuel) (verify_from_good hgf h)
      · have hcand : ∀ n ∈ find_candidates g (k - s_0.card), n ∈ g0.nodes := by
          intro n hn
          rw [← hgf.1]
          exact (mem_find_candidates hn).1
        exact verify_mono (Nat.le_succ fuel)
          (rcLoop_verify_of g0 fuel (run_combination fuel)
            (fun g k g' hW hH hr => run_combination_restores_aux fuel g k g' hW hH hr)
            (fun g k g' hg hr => ih g0 g k g' hg hr)
            _ g k g' hgf hcand h)

end NewKuo

/-!
## Claim theorems

Each claim of the specification audit is settled by exactly one theorem
below (plus a witness for theorems with hypotheses, and a counterexample for
corrected claims).
-/

/-- C1: for every graph state (with node-endpointed edges and with the
current driver level consistent with `reachable`, as every state reachable
in the search is) and every `k`, if the driver-set search call
`run_combination` returns `false`, then on return the state is *equal* to
the state immediately before the call — edge set, in-degree information,
restore stack, reachable set, and level list included; no failed branch
leaks any mutation to a sibling branch.  First conjunct: the optimized
implementation (`new_kuo.py`, whose state includes the in-degree cache);
second conjunct: the original implementation (`kuo.py`, in its ordinary use
where the argument is the global graph — there `in-degree information` is
computed from the edges, so state equality covers it). -/
theorem C1_run_combination_failure_restores :
    (∀ (fuel : Nat) (g : NewKuo.SGraph) (k : Nat) (g' : NewKuo.SGraph),
      NewKuo.edgesWF g → g.sets.headD ∅ ⊆ g.reachable →
      NewKuo.run_combination fuel g k = some (false, g') → g' = g) ∧
    (∀ (fuel : Nat) (g : Kuo.SGraph) (k : Int) (g' : Kuo.SGraph),
      Kuo.edgesWFK g → g.sets.headD ∅ = g.reachable →
      Kuo.run_combination fuel g k = some (false, g') → g' = g) :=
  ⟨fun fuel g k g' hWF hHead h =>
      NewKuo.run_combination_restores_aux fuel g k g' hWF hHead h,
    fun fuel g k g' hWF hHead h =>
      Kuo.run_combination_restores_kuo fuel g k g' hWF hHead h⟩

/-- C1 witness: on the two-2-cycles graph, `new_kuo`'s `run_combination` at
`k = 1` tries and rejects every candidate (mutating and restoring the graph
four times over) and hands back exactly the post-initialization state; on
the 2-cycle, `kuo`'s `run_combination` at `k = 1` likewise fails and
restores. -/
theorem C1_witness :
    NewKuo.edgesWF NewKuo.initTP ∧
      (NewKuo.initTP.sets.headD ∅ ⊆ NewKuo.initTP.reachable) ∧
      NewKuo.rcDemoOut = NewKuo.initTP ∧
      Kuo.edgesWFK kuoInitTC ∧
      (kuoInitTC.sets.headD ∅ = kuoInitTC.reachable) ∧
      kuoRcOut = kuoInitTC :=
  ⟨by decide, by decide,
    C1_run_combination_failure_restores.1 20 NewKuo.initTP 1 NewKuo.rcDemoOut
      (by decide) (by decide) (by decide),
    by decide, by decide,
    C1_run_combination_failure_restores.2 12 kuoInitTC 1 kuoRcOut
      (by decide) (by decide) (by decide)⟩

/-- C3: when an implication-cascade level fails (its recursive call returns
`false`), the cascade pops exactly the level set `s_i` it appended, removes
exactly `s_i` from `reachable`, and calls `restore_edge` exactly
`edge_count` times, where `edge_count` is the number of edges removed by the
successor-removal helper at that level (all of this is literal in the
embeddings of `implication`); consequently a `false` return hands back a
state equal to the entry state in every component.  First conjunct:
`new_kuo.py`; second conjunct: `kuo.py` (ordinary, global-argument use). -/
theorem C3_implication_backtrack_exact :
    (∀ (fuel : Nat) (g g' : NewKuo.SGraph), NewKuo.edgesWF g →
      NewKuo.implication g fuel = some (false, g') → g' = g) ∧
    (∀ (fuel : Nat) (g : Kuo.SGraph) (i : Nat) (g' : Kuo.SGraph), Kuo.edgesWFK g →
      Kuo.implication g i fuel = some (false, g') → g' = g) :=
  ⟨fun fuel g g' hWF h => NewKuo.implication_restores_aux fuel g g' hWF h,
    fun fuel g i g' hWF h => Kuo.implication_restores_kuo fuel g i g' hWF h⟩

/-- C3 witness: on the three-node demonstration graph each cascade peels
`{0}`, removes the edge `(0, 1)`, dead-ends, backtracks, and returns exactly
the original state — in both implementations. -/
theorem C3_witness :
    NewKuo.edgesWF NewKuo.demoA ∧ NewKuo.impDemoOut = NewKuo.demoA ∧
      Kuo.edgesWFK kuoDemoA ∧ kuoImpOut = kuoDemoA :=
  ⟨by decide,
    C3_implication_backtrack_exact.1 5 NewKuo.demoA NewKuo.impDemoOut
      (by decide) (by decide),
    by decide,
    C3_implication_backtrack_exact.2 5 kuoDemoA 1 kuoImpOut (by decide) (by decide)⟩

/-- C8: for every graph state and node, the candidate-ranking score computed
by `score_node` equals
`(out_degree(n) - in_degree(n)) + 2 * |successors(n) \ reachable|`
(over the true degrees, with integer subtraction).  The source computes the
score from read-only queries only; correspondingly its embedding is a pure
function of the state, so no mutation of the graph or the reachable set is
possible. -/
theorem C8_score_node_formula (g : NewKuo.SGraph) (n : Nat) :
    NewKuo.score_node g n =
      ((NewKuo.outDeg g n : Int) - (NewKuo.inDeg g n : Int)) +
        2 * ((NewKuo.successors g n \ g.reachable).card : Int) := by
  unfold NewKuo.score_node
  ring

/-- C5 (corrected): `kuo.py`'s `restore_edge` on an empty restore stack
fails (`list.pop` raises `IndexError`, modelled as `none`), but
`new_kuo.py`'s `restore_edge` guards the pop and returns `None` *normally*,
leaving the graph unchanged — it does not fail. -/
theorem C5_restore_on_empty_stack :
    (∀ gk : Kuo.SGraph, gk.edge_restore_stack = [] → Kuo.restore_edge gk = none) ∧
    (∀ gn : NewKuo.SGraph, gn.edge_restore_stack = [] →
      NewKuo.restore_edge gn = (gn, none)) := by
  constructor
  · intro gk hk
    unfold Kuo.restore_edge
    rw [hk]
  · intro gn hn
    unfold NewKuo.restore_edge
    rw [hn]

/-- C5 witness: both conjuncts at concrete empty-stack graphs. -/
theorem C5_witness :
    Kuo.restore_edge kuoSingle = none ∧
      NewKuo.restore_edge demoC = (demoC, none) :=
  ⟨C5_restore_on_empty_stack.1 kuoSingle rfl,
    C5_restore_on_empty_stack.2 demoC rfl⟩

/-- C5 counterexample: the claim says a restore on an empty stack "fails
with an EmptyRestoreStack error rather than returning normally" and "never
silently leaves the graph unchanged and succeeds"; `new_kuo.SGraph`'s
`restore_edge` on the freshly built `demoC` (empty stack) returns normally
with result `None` and the graph bit-for-bit unchanged. -/
theorem C5_counterexample :
    NewKuo.restore_edge demoC = (demoC, none) ∧ (NewKuo.restore_edge demoC).1 = demoC := by
  constructor <;> rfl

/-- C6 (corrected): initialization refreshes the cache to the true
in-degrees; a successful `remove_edge` and a discipline-respecting
`restore_edge` (popping a currently absent edge between existing nodes) keep
the cached in-degree of every node equal to the number of current edges
targeting it; but the inherited `add_edge` — used directly, as the claim's
"graph-store operation" — never touches the cache, so after adding a new
edge the cached in-degree of the target is one *less* than its true
in-degree. -/
theorem C6_cache_consistency :
    (∀ l : List (Nat × Nat), NewKuo.cacheOK (NewKuo.mkGraph l)) ∧
    (∀ (g g' : NewKuo.SGraph) (u v : Nat), NewKuo.cacheOK g →
      NewKuo.remove_edge g u v = some g' → NewKuo.cacheOK g') ∧
    (∀ (g : NewKuo.SGraph) (u v : Nat) (rest : List (Nat × Nat)), NewKuo.cacheOK g →
      g.edge_restore_stack = (u, v) :: rest → (u, v) ∉ g.edges →
      u ∈ g.nodes → v ∈ g.nodes → NewKuo.cacheOK (NewKuo.restore_edge g).1) ∧
    (∀ (g : NewKuo.SGraph) (u v : Nat), NewKuo.cacheOK g → (u, v) ∉ g.edges →
      v ∈ g.nodes →
      NewKuo.cacheLookup (NewKuo.add_edge g u v) v =
        some ((NewKuo.inDeg (NewKuo.add_edge g u v) v : Int) - 1)) :=
  ⟨NewKuo.cacheOK_mkGraph,
    fun _ _ _ _ hok h => NewKuo.cacheOK_remove_edge hok h,
    fun _ _ _ _ hok hstack habs hu hv =>
      NewKuo.cacheOK_restore_edge hok hstack habs hu hv,
    fun _ _ _ hok habs hv => NewKuo.add_edge_stale hok habs hv⟩

/-- C6 witness: the four conjuncts applied at concrete inputs — `demoC`
is consistent; removing `(0, 1)` keeps it consistent; the restore of a
removed edge keeps it consistent; and after a bare `add_edge 2 0` the
cached degree of node `0` is its true in-degree minus one. -/
theorem C6_witness :
    NewKuo.cacheOK demoC ∧
      NewKuo.cacheOK ((NewKuo.remove_edge demoC 0 1).getD demoC) ∧
      NewKuo.cacheLookup (NewKuo.add_edge demoC 2 0) 0 =
        some ((NewKuo.inDeg (NewKuo.add_edge demoC 2 0) 0 : Int) - 1) := by
  refine ⟨C6_cache_consistency.1 [(0, 1), (1, 2)], ?_, ?_⟩
  · exact (by decide : NewKuo.remove_edge demoC 0 1
        = some ((NewKuo.remove_edge demoC 0 1).getD demoC)) ▸
      C6_cache_consistency.2.1 demoC _ 0 1 (by decide) (by decide)
  · exact C6_cache_consistency.2.2.2 demoC 2 0 (by decide) (by decide) (by decide)

/-- C6 counterexample: the claim as stated — after *every* graph-store
operation, `add_edge` included, the cached in-degree of every node equals
the number of current edges targeting it — is false: after
`add_edge demoC 2 0` the cache still says `0` for node `0` while one edge
now targets it. -/
theorem C6_counterexample :
    NewKuo.cacheLookup (NewKuo.add_edge demoC 2 0) 0 ≠
      some ((NewKuo.inDeg (NewKuo.add_edge demoC 2 0) 0 : Int)) := by
  decide

/-- C7: restoration symmetry of the `new_kuo` store.  For any balanced
program of `remove_edge` calls and an equal number of `restore_edge` calls
in any LIFO-consistent nesting (`BProg` is exactly the Dyck decomposition
`remove e; balanced; restore; balanced`), a successful run returns the graph
to a state equal to the initial one in every component: adjacency, in-degree
cache, restore stack, `sets` and `reachable`. -/
theorem C7_remove_restore_roundtrip :
    ∀ (bp : BProg) (g g' : NewKuo.SGraph), NewKuo.edgesWF g →
      execBProg bp g = some g' → g' = g := by
  intro bp
  induction bp with
  | nil =>
    intro g g' _ h
    exact (Option.some.inj h).symm
  | node e inner rest ih_inner ih_rest =>
    intro g g' hWF h
    unfold execBProg at h
    cases hrem : NewKuo.remove_edge g e.1 e.2 with
    | none => rw [hrem] at h; simp at h
    | some g1 =>
      rw [hrem] at h
      unfold NewKuo.remove_edge at hrem
      split at hrem
      · rename_i hmem
        obtain rfl := Option.some.inj hrem
        rw [Option.some_bind] at h
        cases hinner : execBProg inner _ with
        | none => rw [hinner] at h; simp at h
        | some g2 =>
          rw [hinner] at h
          rw [Option.some_bind] at h
          have hWF1 : NewKuo.edgesWF
              { g with
                  edges := g.edges.erase (e.1, e.2)
                  edge_restore_stack := (e.1, e.2) :: g.edge_restore_stack
                  in_degree_cache := NewKuo.cacheDec g.in_degree_cache e.2 } := by
            intro e' he'
            exact hWF e' (Finset.mem_of_mem_erase he')
          have hg2 := ih_inner _ g2 hWF1 hinner
          rw [hg2] at h
          have hrest : (NewKuo.restore_edge
              { g with
                  edges := g.edges.erase (e.1, e.2)
                  edge_restore_stack := (e.1, e.2) :: g.edge_restore_stack
                  in_degree_cache := NewKuo.cacheDec g.in_degree_cache e.2 }).1 = g := by
            unfold NewKuo.restore_edge
            simp only [NewKuo.add_edge]
            rw [NewKuo.cacheInc_cacheDec,
              Finset.insert_erase hmem,
              Finset.insert_eq_self.2 (hWF _ hmem).2,
              Finset.insert_eq_self.2 (hWF _ hmem).1]
          rw [hrest] at h
          exact ih_rest g g' hWF h
      · exact absurd hrem (by simp)

/-- C7 witness: the nested balanced program
`remove (0,1); (remove (1,2); restore); restore` on `demoC` succeeds and
round-trips exactly. -/
theorem C7_witness :
    NewKuo.edgesWF demoC ∧
      execBProg (.node (0, 1) (.node (1, 2) .nil .nil) .nil) demoC = some demoC := by
  refine ⟨by decide, ?_⟩
  have hrun : ∃ gout, execBProg (.node (0, 1) (.node (1, 2) .nil .nil) .nil) demoC
      = some gout := ⟨_, rfl⟩
  obtain ⟨gout, hout⟩ := hrun
  rw [hout,
    C7_remove_restore_roundtrip (.node (0, 1) (.node (1, 2) .nil .nil) .nil) demoC gout
      (by decide) hout]


/-- A successful pop of the restore stack only adds edges. -/
theorem restore_edge_kuo_edges_mono {a : Kuo.SGraph} {p : Kuo.SGraph × (Nat × Nat)}
    (h : Kuo.restore_edge a = some p) : a.edges ⊆ p.1.edges := by
  unfold Kuo.restore_edge at h
  split at h
  · exact absurd h (by simp)
  · obtain rfl := Option.some.inj h
    exact Finset.subset_insert _ _

/-- The backtracking restore loop of the mismatched-global scenario only
ever adds edges to the argument graph, crash or not. -/
theorem restoreSteps_edges_mono :
    ∀ (n : Nat) (a : Kuo.SGraph), a.edges ⊆ (KuoGlobal.restoreSteps a n).1.edges := by
  intro n
  induction n with
  | zero => intro a; exact fun _ hx => hx
  | succ n ih =>
    intro a
    rw [KuoGlobal.restoreSteps]
    split
    · exact fun _ hx => hx
    · rename_i a' w hre
      exact (restore_edge_kuo_edges_mono hre).trans (ih a')

/-- C10 (corrected): when `kuo.implication` is invoked with a graph object
other than the module-level global, every edge removal is applied to the
global graph and none to the argument (the global's edge set can only
shrink, the argument's can only grow — the backtracking restores go to the
argument); consequently it is the *global* graph that can be left modified
by a failed call, while the argument's edge set is never reduced. -/
theorem C10_global_argument_split :
    ∀ (fuel : Nat) (glob arg : Kuo.SGraph),
      (KuoGlobal.globOf (KuoGlobal.implication2 glob arg fuel)).edges ⊆ glob.edges ∧
        arg.edges ⊆ (KuoGlobal.argOf (KuoGlobal.implication2 glob arg fuel)).edges := by
  intro fuel
  induction fuel with
  | zero => intro glob arg; exact ⟨fun _ hx => hx, fun _ hx => hx⟩
  | succ fuel ih =>
    intro glob arg
    rw [KuoGlobal.implication2]
    split
    · exact ⟨fun _ hx => hx, fun _ hx => hx⟩
    · simp only []
      split
      · split
        · exact ⟨fun _ hx => hx, fun _ hx => hx⟩
        · rename_i glob2 L hrns
          obtain ⟨hrun, _, _⟩ := Kuo.remove_successors_eq hrns
          have hg2 : glob2.edges ⊆ glob.edges :=
            (Kuo.removeEdgeList_facts_kuo _ _ _ hrun).2.2.2
          have ihx := ih glob2
            { arg with
                sets := arg.sets ++
                  [Finset.filter (fun v => Kuo.inDeg arg v = 0) arg.nodes \ arg.reachable]
                reachable := arg.reachable ∪
                  (Finset.filter (fun v => Kuo.inDeg arg v = 0) arg.nodes \ arg.reachable) }
          split
          · rename_i g3 a3 heq
            rw [heq] at ihx
            exact ⟨ihx.1.trans hg2, ihx.2⟩
          · rename_i g3 a3 heq
            rw [heq] at ihx
            split
            · rename_i arg5 hrs
              have hmono := restoreSteps_edges_mono L.length
                { a3 with
                    sets := a3.sets.dropLast
                    reachable := a3.reachable \
                      (Finset.filter (fun v => Kuo.inDeg arg v = 0) arg.nodes \
                        arg.reachable) }
              rw [hrs] at hmono
              exact ⟨ihx.1.trans hg2, ihx.2.trans hmono⟩
            · rename_i arg5 hrs
              have hmono := restoreSteps_edges_mono L.length
                { a3 with
                    sets := a3.sets.dropLast
                    reachable := a3.reachable \
                      (Finset.filter (fun v => Kuo.inDeg arg v = 0) arg.nodes \
                        arg.reachable) }
              rw [hrs] at hmono
              exact ⟨ihx.1.trans hg2, ihx.2.trans hmono⟩
          · rename_i g3 a3 heq
            rw [heq] at ihx
            exact ⟨ihx.1.trans hg2, ihx.2⟩
          · rename_i g3 a3 heq
            rw [heq] at ihx
            exact ⟨ihx.1.trans hg2, ihx.2⟩
      · exact ⟨fun _ hx => hx, fun _ hx => hx⟩

/-- C10 counterexample: the claim's conclusion — "only the global graph is
left unmodified net-of-restoration" — is false.  With the global and the
argument both the one-edge graph `0 → 1` (distinct objects), the call
crashes on restore-stack underflow, the *global* graph has lost its edge
(removed, never restored — the restores went to the argument), and the
*argument*'s edge set is exactly its original one. -/
theorem C10_counterexample :
    KuoGlobal.isCrash c10run = true ∧
      (KuoGlobal.globOf c10run).edges ≠ kuoSingle.edges ∧
      (KuoGlobal.argOf c10run).edges = kuoSingle.edges :=
  ⟨by decide, by decide, by decide⟩

/-- C9 counterexample: the two implementations do not return driver sets of
the same size on every input.  On the 2-cycle `0 ↔ 1` (no timeout involved
— both runs complete), `kuo.kuos_algorithm` finishes its loop and returns
Python `None` — no driver set at all — while `new_kuo.kuos_algorithm`
returns a driver set of size 1 with `completed = true`. -/
theorem C9_counterexample :
    Kuo.kuos_algorithm kuoTwoCycle 12 = some none ∧
      (NewKuo.kuos_algorithm nkTwoCycle 12).map (fun r => (r.1.card, r.2)) =
        some (1, true) :=
  ⟨by decide, by decide⟩

/-- C9 (corrected): the implementations disagree: on the 2-cycle the
original implementation returns `None` (its size loop stops at
`|nodes| - 1` and its `run_combination` only tests the cascade when
`k - |S0|` hits `0`, stepping down by 2, so the size-1 driver set `{1}` is
never cascade-tested), while the optimized implementation returns the
verified driver set `{1}` of size 1. -/
theorem C9_implementations_disagree :
    Kuo.kuos_algorithm kuoTwoCycle 12 = some none ∧
      NewKuo.kuos_algorithm nkTwoCycle 12 = some ({1}, true) :=
  ⟨by decide, by decide⟩

/-- C4 (corrected): the optimized implementation's escalation loop tries
exactly the sizes `k0 ≤ k ≤ |nodes|` in strictly increasing order with none
skipped, and — because every failed size hands the state back untouched (the
restoration property) and the driver level grows to at most `k` nodes — a
completed search never returns a driver set larger than any size `k ≥ k0` at
which `run_combination` succeeds from the post-initialization state, in
particular the smallest such size.  The original implementation's loop,
`range(k0, len(G.nodes))`, tries `k0 ≤ k ≤ |nodes| - 1`, *excluding*
`k = |nodes|` — the claim's "through |nodes| inclusive" fails for it. -/
theorem C4_escalation_order_and_minimality :
    (∀ (g : NewKuo.SGraph) (j : Nat),
      j ∈ NewKuo.triedSizes g ↔ (NewKuo.k0Val g ≤ j ∧ j ≤ g.nodes.card)) ∧
    (∀ g : NewKuo.SGraph, List.Sorted (· < ·) (NewKuo.triedSizes g)) ∧
    (∀ (fuel : Nat) (g g2 : NewKuo.SGraph) (D : Finset Nat) (k : Nat)
        (g'' : NewKuo.SGraph),
      NewKuo.edgesWF g →
      NewKuo.kuos_algorithm g fuel = some (D, true) →
      NewKuo.initState g = some g2 →
      NewKuo.k0Val g ≤ k →
      NewKuo.run_combination fuel g2 k = some (true, g'') →
      D.card ≤ k) ∧
    (∀ (g : Kuo.SGraph) (j : Nat),
      j ∈ Kuo.triedSizes g ↔ (Kuo.k0Val g ≤ j ∧ j + 1 ≤ g.nodes.card)) := by
  refine ⟨?_, ?_, ?_, ?_⟩
  · intro g j
    unfold NewKuo.triedSizes
    rw [List.mem_range'_1]
    omega
  · intro g
    exact List.pairwise_lt_range' _ _
  · intro fuel g g2 D k g'' hWF hkuos hinit hk0 hsucc
    unfold NewKuo.kuos_algorithm at hkuos
    rw [hinit] at hkuos
    have hks : NewKuo.ksLoop g2 (NewKuo.triedSizes g) fuel = some (D, true) := hkuos
    have hif := NewKuo.initState_facts hinit
    have hWF2 : NewKuo.edgesWF g2 := by
      intro e he
      have := hWF e (hif.2.2.2 he)
      rw [hif.2.2.1]
      exact this
    have hHeadEq : g2.sets.headD ∅ = NewKuo.get_zero_indegree_nodes g := by
      rw [hif.1]
      rfl
    have hHead2 : g2.sets.headD ∅ ⊆ g2.reachable := by
      rw [hHeadEq, hif.2.1]
    obtain ⟨ks, hkmem, ⟨gt, hrunks, hD⟩, hprior⟩ :=
      NewKuo.ksLoop_min (NewKuo.triedSizes g) g2 fuel D hWF2 hHead2
        (List.pairwise_lt_range' _ _) hks
    have hkslo : NewKuo.k0Val g ≤ ks ∧ ks < NewKuo.k0Val g +
        (g.nodes.card + 1 - NewKuo.k0Val g) := by
      have := hkmem
      unfold NewKuo.triedSizes at this
      exact List.mem_range'_1.1 this
    have hcard0 : (g2.sets.headD ∅).card ≤ ks := by
      rw [hHeadEq]
      exact hkslo.1
    have hDks : D.card ≤ ks := by
      rw [hD]
      exact NewKuo.run_combination_true_head_card fuel g2 ks gt hWF2 hHead2 hcard0 hrunks
    rcases le_or_lt ks k with hle | hgt
    · omega
    · exfalso
      have hkmem' : k ∈ NewKuo.triedSizes g := by
        unfold NewKuo.triedSizes
        rw [List.mem_range'_1]
        omega
      have hfail := hprior k hkmem' hgt
      rw [hfail] at hsucc
      simp at hsucc
  · intro g j
    unfold Kuo.triedSizes
    rw [List.mem_range'_1]
    omega

/-- C4 counterexample: for the original implementation the claimed range
"k0 through |nodes| inclusive" is false: on the 2-cycle, `|nodes| = 2` is
not among the tried sizes, the search completes with `None`, and yet
`run_combination` at the skipped `k = 2` (from the same post-initialization
state) would have succeeded. -/
theorem C4_counterexample :
    (kuoTwoCycle.nodes.card ∉ Kuo.triedSizes kuoTwoCycle) ∧
      Kuo.kuos_algorithm kuoTwoCycle 12 = some none ∧
      (Kuo.run_combination 12 kuoInitTC (kuoTwoCycle.nodes.card : Int)).map Prod.fst =
        some true :=
  ⟨by decide, by decide, by decide⟩

/-- C4 witness: the minimality component applied to the specification's
worked example — the search returns `{0, 3}` (size 2) and `run_combination`
succeeds at `k = 2 = k0`, so the bound is tight. -/
theorem C4_witness :
    NewKuo.edgesWF c4g ∧
      NewKuo.kuos_algorithm c4g 12 = some (c4D, true) ∧
      NewKuo.initState c4g = some c4init ∧
      NewKuo.k0Val c4g ≤ 2 ∧
      NewKuo.run_combination 12 c4init 2 = some (true, c4out) ∧
      c4D.card ≤ 2 :=
  ⟨by decide, by decide, by decide, by decide, by decide,
    C4_escalation_order_and_minimality.2.2.1 12 c4g c4init c4D 2 c4out
      (by decide) (by decide) (by decide) (by decide) (by decide)⟩

/-- C2: for every well-formed input graph, if the search returns
`(D, completed = true)`, then the implication cascade run from scratch on a
fresh copy of the original graph — all outgoing edges of nodes in `D`
removed, `reachable` initialized to `D`, level list `[D]`, cache freshly
recomputed — returns `true` with `reachable` equal to the full node set:
the returned driver set is independently verifiable. -/
theorem C2_driver_set_verifiable
    (g : NewKuo.SGraph) (fuel : Nat) (D : Finset Nat)
    (hWF : NewKuo.WF g)
    (h : NewKuo.kuos_algorithm g fuel = some (D, true)) :
    (NewKuo.implication (NewKuo.verifyState g D) fuel).map
        (fun r => (r.1, r.2.reachable)) = some (true, g.nodes) := by
  unfold NewKuo.kuos_algorithm at h
  cases hinit : NewKuo.initState g with
  | none => rw [hinit] at h; simp at h
  | some g2 =>
    rw [hinit] at h
    have hgf : NewKuo.GoodFrom g g2 :=
      NewKuo.GoodFrom_initState hWF.1 hWF.2.1 hinit
    have hWF2 : NewKuo.edgesWF g2 := hgf.2.2.2.2.2
    have hHead2 : g2.sets.headD ∅ ⊆ g2.reachable := by
      rw [hgf.2.1]
      exact fun x hx => hx
    obtain ⟨k, _, ⟨gt, hrun, hD⟩, _⟩ :=
      NewKuo.ksLoop_min (NewKuo.triedSizes g) g2 fuel D hWF2 hHead2
        (List.pairwise_lt_range' _ _) h
    rw [hD]
    exact NewKuo.run_combination_verify fuel g g2 k gt hgf hrun

/-- C2 witness: on the specification's worked example the search returns
`({0, 3}, true)` and the independent verification run reaches all four
nodes. -/
theorem C2_witness :
    NewKuo.WF c4g ∧
      NewKuo.kuos_algorithm c4g 12 = some (c4D, true) ∧
      (NewKuo.implication (NewKuo.verifyState c4g c4D) 12).map
          (fun r => (r.1, r.2.reachable)) = some (true, c4g.nodes) :=
  ⟨by decide, by decide, C2_driver_set_verifiable c4g 12 c4D (by decide) (by decide)⟩
